import Mathlib

/-!
Verification development for the `minkowski-collision` library
(`src/minkowski-math.ts`, `src/minkowski-diff-engine.ts`).

Embedding conventions:
* JavaScript `number` is modelled by `ℚ` (exact real arithmetic on the
  rational inputs used throughout); `Math.sqrt` appears in the source only
  where its result is immediately squared again (`pointPolyConvexMinDist`,
  whose `mt3 = r * Math.sqrt(mt1)` enters only as `mt3 * mt3 = r * r * mt1`),
  at the very end of `pointPolyConvexMinDist` (modelled by keeping the
  squared distance `d2` and applying `Real.sqrt` at statement boundaries),
  and in `lineCast` for the segment length (modelled by an explicit
  parameter `d` supplied with its defining property; the radicand is a
  perfect square in every concrete run below).
* `Number.POSITIVE_INFINITY` (the initial value of the running minimum in
  `pointPolyConvexMinDist`) and `Number.NaN` (the reset value of a distance
  record) are modelled by `Option ℚ` with `none` for infinity / NaN.
* The `NaN` provenance indices `refA`/`refB` are modelled by `Option ℕ`.
* While-loops are modelled by fuel-indexed step functions returning
  `Option`; `none` means the fuel was exhausted.
* Mutable result objects (`ip`, `ret`) that keep stale fields on early
  returns are modelled by passing the previous value in explicitly.
-/

attribute [local semireducible] Rat.add Rat.sub Rat.mul Rat.inv

/-- `Vec2` of `minkowski-math.ts`, with `ℚ` coordinates. -/
structure Vec2 where
  x : ℚ
  y : ℚ
deriving DecidableEq, Repr

/-- `Vec2Derived`: a vertex plus provenance indices into polygons A and B.
The JS code uses `Number.NaN` for "no reference"; modelled as `none`. -/
structure Vec2D where
  x : ℚ
  y : ℚ
  refA : Option ℕ
  refB : Option ℕ
deriving DecidableEq, Repr

/-- `Segment` of `minkowski-math.ts`. -/
structure Segment where
  a : Vec2
  b : Vec2
deriving DecidableEq, Repr

/-- `ReusablePointArray`: a point buffer of which only the first `pCount`
entries are meaningful. -/
structure ReusablePointArray where
  points : List Vec2D
  pCount : ℕ
deriving DecidableEq, Repr

/-- `ReusablePointArrayLp`: point array with a precomputed lowest-point index. -/
structure ReusablePointArrayLp where
  points : List Vec2D
  pCount : ℕ
  iLowest : ℕ
deriving DecidableEq, Repr

/-- Indexing `poly.points[i]`; in-range in every use below. -/
def getP (ps : List Vec2D) (i : ℕ) : Vec2D := ps.getD i ⟨0, 0, none, none⟩

/-- Indexing a plain `Vec2[]`. -/
def getV (ps : List Vec2) (i : ℕ) : Vec2 := ps.getD i ⟨0, 0⟩

/-- The default epsilon `1e-10` used by every function of the library. -/
def epsDef : ℚ := 1 / 10 ^ 10

/-- `indexOfLowestPoint` of `minkowski-math.ts`: index of the vertex with the
smallest `y`, ties broken by smaller `x` (strict comparisons, scanning left to
right, so the first such vertex wins). -/
def indexOfLowestPoint (v : List Vec2) : ℕ :=
  (List.range v.length).foldl
    (fun i j =>
      if (getV v j).y < (getV v i).y ∨
          ((getV v j).y = (getV v i).y ∧ (getV v j).x < (getV v i).x)
      then j else i) 0

/-- Loop state of the `minkowskiSumConvex` merge: cursors `i`, `j`, advance
counters `ic`, `jc`, and the vertices written so far (`out.length` is the
write index `k`).  `ties` is a ghost counter, not present in the source: it
counts the iterations whose snapped cross product `pdp` was exactly `0`
(both cursors advance). -/
structure MsState where
  i : ℕ
  j : ℕ
  ic : ℕ
  jc : ℕ
  out : List Vec2D
  ties : ℕ
deriving DecidableEq, Repr

/-- The emit-and-advance tail of one `minkowskiSumConvex` loop iteration
(`minkowski-math.ts` lines 89–107), taking the snapped perp-dot product
`pdp` as a value: emit vertex `v`, advance `i` when `pdp ≥ 0`, advance `j`
when `pdp ≤ 0` (both on a tie), and wrap the cursors at `np`, `nq`. -/
def msAdvance (np nq : ℕ) (pdp : ℚ) (v : Vec2D) (s : MsState) : MsState :=
  let out := s.out ++ [v]
  let i2 := if 0 ≤ pdp then s.i + 1 else s.i
  let ic2 := if 0 ≤ pdp then s.ic + 1 else s.ic
  let j2 := if pdp ≤ 0 then s.j + 1 else s.j
  let jc2 := if pdp ≤ 0 then s.jc + 1 else s.jc
  ⟨if i2 = np then 0 else i2, if j2 = nq then 0 else j2,
    ic2, jc2, out, s.ties + (if pdp = 0 then 1 else 0)⟩

/-- One iteration of the `while` loop of `minkowskiSumConvex`
(`minkowski-math.ts` lines 81–108): compute the current edge vectors and
the perp-dot product, snap it to `0` below `eps`, then emit the vertex sum
(with provenance `pa.refA`, `qa.refA`) and advance via `msAdvance`. -/
def msStep (p q : ReusablePointArrayLp) (eps : ℚ) (s : MsState) : MsState :=
  let pa := getP p.points s.i
  let qa := getP q.points s.j
  let pb := getP p.points (if s.i + 1 < p.pCount then s.i + 1 else 0)
  let qb := getP q.points (if s.j + 1 < q.pCount then s.j + 1 else 0)
  let pcx := pb.x - pa.x
  let pcy := pb.y - pa.y
  let qcx := qb.x - qa.x
  let qcy := qb.y - qa.y
  let pdp0 := pcx * qcy - pcy * qcx
  let pdp : ℚ := if |pdp0| < eps then 0 else pdp0
  msAdvance p.pCount q.pCount pdp ⟨pa.x + qa.x, pa.y + qa.y, pa.refA, qa.refA⟩ s

/-- The `while (ic < p.pCount || jc < q.pCount)` loop of
`minkowskiSumConvex`, driven by fuel; `none` means the fuel ran out. -/
def msRun (p q : ReusablePointArrayLp) (eps : ℚ) : ℕ → MsState → Option MsState
  | 0, s =>
    if s.ic < p.pCount ∨ s.jc < q.pCount then none else some s
  | fuel + 1, s =>
    if s.ic < p.pCount ∨ s.jc < q.pCount then msRun p q eps fuel (msStep p q eps s)
    else some s

/-- Initial merge state: cursors at the precomputed lowest-vertex indices. -/
def msInit (p q : ReusablePointArrayLp) : MsState :=
  ⟨p.iLowest, q.iLowest, 0, 0, [], 0⟩

/-- `minkowskiSumConvex` of `minkowski-math.ts`: run the merge loop and
return the result polygon (`r.points` prefix of length `r.pCount = k`). -/
def minkowskiSumConvex (p q : ReusablePointArrayLp) (eps : ℚ) (fuel : ℕ) :
    Option ReusablePointArray :=
  (msRun p q eps fuel (msInit p q)).map fun s => ⟨s.out, s.out.length⟩

/-- `pointInPolyConvex` of `minkowski-math.ts`: the point is inside iff for
no directed edge the perp-dot product of `pt - v1` against `v2 - v1` exceeds
`eps` (an "always on the negative side" check; sign depends on winding). -/
def pointInPolyConvex (pt : Vec2) (poly : ReusablePointArray) (eps : ℚ) : Bool :=
  (List.range poly.pCount).all fun i =>
    let v1 := getP poly.points i
    let v2 := getP poly.points (if i = poly.pCount - 1 then 0 else i + 1)
    let pdp := (pt.x - v1.x) * (v2.y - v1.y) - (pt.y - v1.y) * (v2.x - v1.x)
    decide (pdp ≤ eps)

/-- `MinDistResult` of `minkowski-math.ts`, carrying the running minimum as a
squared distance: the source keeps `ret.d` squared during the loop and takes
`Math.sqrt` only on the final line.  `d2 = none` models the initial
`Number.POSITIVE_INFINITY`; `v1i/v2i = none` model `Number.NaN`. -/
structure MinDistResult where
  d2 : Option ℚ
  v1i : Option ℕ
  v2i : Option ℕ
  minPoint : Vec2
deriving DecidableEq, Repr

/-- Comparison `d2 < ret.d` where `ret.d` may be `POSITIVE_INFINITY`. -/
def ltOpt (x : ℚ) : Option ℚ → Bool
  | none => true
  | some y => decide (x < y)

/-- The body of one edge iteration of `pointPolyConvexMinDist`
(`minkowski-math.ts` lines 154–204), on the edge `v1 → v2` with indices
`i`, `j`.  The source computes `mt3 = r * Math.sqrt(mt1)` and uses it only
as `d2 = mt2 - mt3 * mt3`; in exact arithmetic `mt3 * mt3 = r * r * mt1`,
which is what is written here. -/
def minDistEdge (eps : ℚ) (i j : ℕ) (v1 v2 pt : Vec2)
    (ret : MinDistResult) : MinDistResult :=
  let t1x := v2.x - v1.x
  let t1y := v2.y - v1.y
  let t2x := pt.x - v1.x
  let t2y := pt.y - v1.y
  let mt1 := t1x * t1x + t1y * t1y
  let r := (t1x * t2x + t1y * t2y) / mt1
  if r < 0 then
    let d2 := t2x * t2x + t2y * t2y
    if ltOpt d2 ret.d2 then ⟨some d2, some i, none, v1.x, v1.y⟩ else ret
  else if 1 < r then
    let t3x := pt.x - v2.x
    let t3y := pt.y - v2.y
    let d2 := t3x * t3x + t3y * t3y
    if ltOpt d2 ret.d2 then ⟨some d2, some j, none, v2.x, v2.y⟩ else ret
  else
    let mt2 := t2x * t2x + t2y * t2y
    let d2 := mt2 - r * r * mt1
    if d2 < eps then ⟨some 0, some i, some j, pt.x, pt.y⟩
    else if ltOpt d2 ret.d2 then
      ⟨some d2, some i, some j, v1.x + r * t1x, v1.y + r * t1y⟩
    else ret

/-- One iteration of the edge loop of `pointPolyConvexMinDist`
(`minkowski-math.ts` lines 149–205): fetch the edge endpoints (wrapping the
second index) and run `minDistEdge`. -/
def minDistStep (pt : Vec2) (poly : ReusablePointArray) (eps : ℚ)
    (ret : MinDistResult) (i : ℕ) : MinDistResult :=
  let j := if i = poly.pCount - 1 then 0 else i + 1
  let v1 := getP poly.points i
  let v2 := getP poly.points j
  minDistEdge eps i j ⟨v1.x, v1.y⟩ ⟨v2.x, v2.y⟩ pt ret

/-- `pointPolyConvexMinDist` of `minkowski-math.ts` up to (but excluding) the
final `ret.d = Math.sqrt(ret.d)`: the returned `d2` is the squared distance;
the distance the source returns is `Real.sqrt` of it (see `jsSqrt`).
`ret0` is the caller-supplied result object; its stale `minPoint` survives
when the polygon is empty, exactly as in the source. -/
def pointPolyConvexMinDist (pt : Vec2) (poly : ReusablePointArray)
    (ret0 : MinDistResult) (eps : ℚ) : MinDistResult :=
  (List.range poly.pCount).foldl (minDistStep pt poly eps)
    ⟨none, none, none, ret0.minPoint⟩

/-- The real square root applied to a rational, modelling `Math.sqrt` at the
points where the source returns a distance. -/
noncomputable def jsSqrt (q : ℚ) : ℝ := Real.sqrt (q : ℝ)

/-- `vec2Equal` of `minkowski-math.ts`. -/
def vec2Equal (a b : Vec2) (eps : ℚ) : Bool :=
  decide (|a.x - b.x| < eps) && decide (|a.y - b.y| < eps)

/-- `segmentEqual` of `minkowski-math.ts`.  Note the short-circuit: when the
first endpoints are `eps`-equal the function returns the comparison of the
second endpoints and never tries the swapped pairing. -/
def segmentEqual (a b : Segment) (eps : ℚ) : Bool :=
  if vec2Equal a.a b.a eps then vec2Equal a.b b.b eps
  else if vec2Equal a.b b.a eps then vec2Equal a.a b.b eps
  else false

/-- `IntersectionPoint` of `minkowski-math.ts`. -/
structure IntersectionPoint where
  x : ℚ
  y : ℚ
  s : ℚ
  t : ℚ
  valid : Bool
deriving DecidableEq, Repr

/-- `segmentIntersection` of `minkowski-math.ts`.  `ip0` is the reusable
result object passed in by the caller: on the invalid early returns its
stale `x`, `y`, `s`, `t` fields survive, as in the source. -/
def segmentIntersection (a b : Segment) (ip0 : IntersectionPoint) (eps : ℚ) :
    IntersectionPoint :=
  if segmentEqual a b eps then
    ⟨a.a.x + (a.b.x - a.a.x) / 2, a.a.y + (a.b.y - a.a.y) / 2, 1, 0, true⟩
  else
    let tv1x := a.b.x - a.a.x
    let tv1y := a.b.y - a.a.y
    let tv2x := b.b.x - b.a.x
    let tv2y := b.b.y - b.a.y
    let d := -tv2x * tv1y + tv1x * tv2y
    if d = 0 then ⟨ip0.x, ip0.y, ip0.s, ip0.t, false⟩
    else
      let s := (-tv1y * (a.a.x - b.a.x) + tv1x * (a.a.y - b.a.y)) / d
      if s < 0 ∨ 1 < s then ⟨ip0.x, ip0.y, ip0.s, ip0.t, false⟩
      else
        let t := (tv2x * (a.a.y - b.a.y) - tv2y * (a.a.x - b.a.x)) / d
        if t < 0 ∨ 1 < t then ⟨ip0.x, ip0.y, ip0.s, ip0.t, false⟩
        else
          ⟨a.a.x + t * tv1x, a.a.y + t * tv1y, s, t, true⟩

/-- `BoundingBox` of `minkowski-diff-engine.ts`. -/
structure BoundingBox where
  xmin : ℚ
  xmax : ℚ
  ymin : ℚ
  ymax : ℚ
deriving DecidableEq, Repr

/-- `polyBoundingBox` of `minkowski-diff-engine.ts`.  The source starts from
an infinite empty box and shrinks it with strict comparisons; for a nonempty
ring this equals folding min/max from the first vertex.  Bodies always have
nonempty rings; the empty case is given a junk box. -/
def polyBoundingBox : List Vec2 → BoundingBox
  | [] => ⟨0, 0, 0, 0⟩
  | p :: ps =>
    ps.foldl
      (fun bb q =>
        ⟨if q.x < bb.xmin then q.x else bb.xmin,
         if bb.xmax < q.x then q.x else bb.xmax,
         if q.y < bb.ymin then q.y else bb.ymin,
         if bb.ymax < q.y then q.y else bb.ymax⟩)
      ⟨p.x, p.x, p.y, p.y⟩

/-- `Body` of `minkowski-diff-engine.ts`.  The opaque payload `data` is
dropped; `nodeId` (produced by the injected `idGen`) is supplied with the
shape descriptor.  The placeholder `someBody` has `index = -1` in the
source; its index is never read, so `index` is modelled as `ℕ`. -/
structure Body where
  pos : Vec2
  v : List Vec2
  vn : List Vec2
  iLowest : ℕ
  iLowestN : ℕ
  nodeId : String
  index : ℕ
  bb : BoundingBox
  castId : ℤ
deriving DecidableEq, Repr

/-- Default body used for out-of-range list indexing (never hit in-range). -/
def defBody : Body := ⟨⟨0, 0⟩, [], [], 0, 0, "", 0, ⟨0, 0, 0, 0⟩, -1⟩

/-- A shape descriptor handed to `updateData`: the `PolyData` payload plus
the identity the injected `idGen` assigns to it. -/
structure ShapeData where
  pos : Vec2
  v : List Vec2
  nodeId : String
deriving DecidableEq, Repr

/-- Default shape descriptor for out-of-range indexing. -/
def defShape : ShapeData := ⟨⟨0, 0⟩, [], ""⟩

/-- `createBody` of `minkowski-diff-engine.ts`. -/
def createBody (d : ShapeData) (index : ℕ) : Body :=
  let vn := d.v.map fun p => ⟨-p.x, -p.y⟩
  ⟨d.pos, d.v, vn, indexOfLowestPoint d.v, indexOfLowestPoint vn,
    d.nodeId, index, polyBoundingBox d.v, -1⟩

/-- `bbOverlap` of `minkowski-diff-engine.ts`. -/
def bbOverlap (a b : Body) : Bool :=
  !(decide (a.pos.x + a.bb.xmax < b.pos.x + b.bb.xmin) ||
    decide (b.pos.x + b.bb.xmax < a.pos.x + a.bb.xmin) ||
    decide (a.pos.y + a.bb.ymax < b.pos.y + b.bb.ymin) ||
    decide (b.pos.y + b.bb.ymax < a.pos.y + a.bb.ymin))

/-- `pointInBb` of `minkowski-diff-engine.ts`. -/
def pointInBb (a : Vec2) (b : Body) : Bool :=
  !(decide (a.x < b.pos.x + b.bb.xmin) ||
    decide (b.pos.x + b.bb.xmax < a.x) ||
    decide (a.y < b.pos.y + b.bb.ymin) ||
    decide (b.pos.y + b.bb.ymax < a.y))

/-- `BodyBodyDistance` of `minkowski-diff-engine.ts`: a distance-table
entry.  `d = none` models `Number.NaN`. -/
structure BodyBodyDistance where
  a : Body
  b : Body
  d : Option ℚ
  dv : Vec2
  pt : Vec2
deriving DecidableEq, Repr

/-- Engine state: the fields of `MinkowskiDiffEngine` the claims are about.
The reusable scratch buffers (`p`, `qn`, `msra`, `collisions`, `mdr`, `ip`,
temporary vectors) are modelled functionally at their points of use;
`castResults` is modelled by its slot count `castResultsLen` plus the list
of records a `lineCast` produces.  `minBbAxis = none` models
`Number.POSITIVE_INFINITY` (the constructor initialises the field to `0`). -/
structure EngineState where
  bodies : List Body
  minBbAxis : Option ℚ
  castId : ℤ
  castResultsLen : ℕ
  distances : List (List BodyBodyDistance)
deriving DecidableEq, Repr

/-- A freshly constructed engine. -/
def freshEngine : EngineState := ⟨[], some 0, 0, 0, []⟩

/-- Running minimum against a possibly-infinite current minimum
(`if (q < m) m = q` with `m` starting at `POSITIVE_INFINITY`). -/
def minOpt (m : Option ℚ) (q : ℚ) : Option ℚ :=
  match m with
  | none => some q
  | some x => if q < x then some q else some x

/-- Reset of one distance-table entry by `updateData`
(`minkowski-diff-engine.ts` lines 258–264).  The source writes `dist.pt.y = 0`
twice and never touches `dist.pt.x`, so the stale `pt.x` survives. -/
def resetDistEntry (old : BodyBodyDistance) (a b : Body) : BodyBodyDistance :=
  ⟨a, b, none, ⟨0, 0⟩, ⟨old.pt.x, 0⟩⟩

/-- A distance-table entry as freshly allocated by `updateData` before the
reset assignments run (`{a: someBody, b: someBody, d: NaN, dv: 0, pt: 0}`). -/
def freshDistEntry : BodyBodyDistance := ⟨defBody, defBody, none, ⟨0, 0⟩, ⟨0, 0⟩⟩

/-- One row `i` of the distance table after `updateData`: logical columns
`bi = j - (i+1)` for `j = i+1 .. n-1` are reset (existing entries reused,
missing ones freshly pushed); stale columns beyond the logical range are
kept, as in the source. -/
def rowAfter (oldRow : List BodyBodyDistance) (bodies : List Body) (i : ℕ) :
    List BodyBodyDistance :=
  let n := bodies.length
  ((List.range (n - (i + 1))).map fun bi =>
    resetDistEntry (oldRow.getD bi freshDistEntry)
      (bodies.getD i defBody) (bodies.getD (i + 1 + bi) defBody)) ++
  oldRow.drop (n - (i + 1))

/-- The distance table after `updateData`: rows `0 .. n-2` are rebuilt
(existing rows reused, missing ones pushed); stale rows beyond the logical
range are kept, as in the source. -/
def distancesAfter (old : List (List BodyBodyDistance)) (bodies : List Body) :
    List (List BodyBodyDistance) :=
  let n := bodies.length
  ((List.range (n - 1)).map fun i => rowAfter (old.getD i []) bodies i) ++
  old.drop (n - 1)

/-- The length of the `castResults` array after the prefill loop of
`updateData`: for each descriptor index `i`, a slot is pushed only when
`i > castResults.length`. -/
def castResultsLenAfter (oldLen n : ℕ) : ℕ :=
  (List.range n).foldl (fun len i => if len < i then len + 1 else len) oldLen

/-- `updateData` of `minkowski-diff-engine.ts`: replace the body list,
recompute `minBbAxis`, grow `castResults`, and rebuild the distance table.
The growth of the other scratch buffers (`p`, `qn`, `msra`, `collisions`)
is capacity bookkeeping not otherwise observable and is not modelled. -/
def updateData (e : EngineState) (data : List ShapeData) : EngineState :=
  let bodies := (List.range data.length).map fun i => createBody (data.getD i defShape) i
  let minBb := bodies.foldl
    (fun m b => minOpt (minOpt m (b.bb.xmax - b.bb.xmin)) (b.bb.ymax - b.bb.ymin)) none
  ⟨bodies, minBb, e.castId, castResultsLenAfter e.castResultsLen data.length,
    distancesAfter e.distances bodies⟩

/-- The in-place mutation `b.pos.x += dx; b.pos.y += dy` of
`updateShapePos`, as a function on the body. -/
def translateBody (b : Body) (dx dy : ℚ) : Body :=
  { b with pos := ⟨b.pos.x + dx, b.pos.y + dy⟩ }

/-- `updateShapePos` of `minkowski-diff-engine.ts`: linear scan for the
first body whose `nodeId` matches (`Array.prototype.find`), then add the
delta to its position; no match is a silent no-op. -/
def updateShapePos (e : EngineState) (id : String) (dx dy : ℚ) : EngineState :=
  match e.bodies.findIdx? (fun b => b.nodeId == id) with
  | none => e
  | some k =>
    let b := e.bodies.getD k defBody
    { e with bodies := e.bodies.set k (translateBody b dx dy) }

/-- `updatePQn` of `minkowski-diff-engine.ts`: fill the Minkowski inputs
with body A's ring translated by its position and body B's negated ring
translated by the negated position.  The provenance fields of the reused
buffer are left stale in the source and never read on this path; modelled
as `none`. -/
def updatePQn (ba bb : Body) : ReusablePointArrayLp × ReusablePointArrayLp :=
  (⟨ba.v.map fun p => ⟨p.x + ba.pos.x, p.y + ba.pos.y, none, none⟩,
      ba.v.length, ba.iLowest⟩,
   ⟨bb.vn.map fun p => ⟨p.x - bb.pos.x, p.y - bb.pos.y, none, none⟩,
      bb.v.length, bb.iLowestN⟩)

/-- `updatePQnReffed` of `minkowski-diff-engine.ts`: as `updatePQn` but
recording each vertex's own index in `refA` (and `NaN`, i.e. `none`, in
`refB`). -/
def updatePQnReffed (ba bb : Body) : ReusablePointArrayLp × ReusablePointArrayLp :=
  (⟨(List.range ba.v.length).map fun vi =>
      let p := getV ba.v vi
      ⟨p.x + ba.pos.x, p.y + ba.pos.y, some vi, none⟩,
      ba.v.length, ba.iLowest⟩,
   ⟨(List.range bb.vn.length).map fun vi =>
      let p := getV bb.vn vi
      ⟨p.x - bb.pos.x, p.y - bb.pos.y, some vi, none⟩,
      bb.v.length, bb.iLowestN⟩)

/-- The Minkowski-difference polygon of a body pair: `updatePQn`
(or `updatePQnReffed`) followed by `minkowskiSumConvex`, as in
`checkCollision`. -/
def diffPoly (reffed : Bool) (ba bb : Body) (fuel : ℕ) :
    Option ReusablePointArray :=
  let pq := if reffed then updatePQnReffed ba bb else updatePQn ba bb
  minkowskiSumConvex pq.1 pq.2 epsDef fuel

/-- The collision-list writes of one `checkCollision` call
(`minkowski-diff-engine.ts` lines 478–499): unless `distCalc` forces the
full path, reject on bounding boxes; otherwise build the difference polygon
and record the ordered pair `(ba, bb)` iff the origin is inside it.
The engine's `epsilon` is the readonly `1e-10`. -/
def checkCollisionWrites (distCalc reffed : Bool) (fuel : ℕ) (ba bb : Body) :
    Option (List (Body × Body)) :=
  if distCalc || bbOverlap ba bb then
    (diffPoly reffed ba bb fuel).map fun msr =>
      if pointInPolyConvex ⟨0, 0⟩ msr epsDef then [(ba, bb)] else []
  else some []

/-- The distance computation of one `checkCollision` call with `distCalc`
enabled (lines 501–511): minimum distance from the origin to the difference
polygon.  The stored scalar is `Math.sqrt` of the returned `d2`
(see `jsSqrt`) and the stored separating vector is the negated `minPoint`. -/
def checkCollisionDist (reffed : Bool) (fuel : ℕ) (ba bb : Body) :
    Option MinDistResult :=
  (diffPoly reffed ba bb fuel).map fun msr =>
    pointPolyConvexMinDist ⟨0, 0⟩ msr ⟨none, none, none, ⟨0, 0⟩⟩ epsDef

/-- `checkBodyBodyCollision` of `minkowski-diff-engine.ts`: order the pair
by `index` before running the pairwise check; returns the collision-list
writes. -/
def checkBodyBodyCollision (distCalc reffed : Bool) (fuel : ℕ) (ba bb : Body) :
    Option (List (Body × Body)) :=
  if ba.index < bb.index then checkCollisionWrites distCalc reffed fuel ba bb
  else checkCollisionWrites distCalc reffed fuel bb ba

/-- The pair loop of `checkCollisions`: run the remaining pairs in order,
accumulating collision-list writes, returning early when `stopOnFirst` is
set and something has been written. -/
def collisionsLoop (distCalc reffed : Bool) (fuel : ℕ) (stopOnFirst : Bool) :
    List (Body × Body) → List (Body × Body) → Option (List (Body × Body))
  | [], acc => some acc
  | (ba, bb) :: rest, acc =>
    match checkCollisionWrites distCalc reffed fuel ba bb with
    | none => none
    | some w =>
      let acc2 := acc ++ w
      if stopOnFirst ∧ acc2.length ≠ 0 then some acc2
      else collisionsLoop distCalc reffed fuel stopOnFirst rest acc2

/-- The pairs `(bodies[i], bodies[j])`, `i < j`, in the enumeration order of
`checkCollisions` (`for i; for j = i+1 .. n-1`). -/
def allPairs (bodies : List Body) : List (Body × Body) :=
  (List.range bodies.length).flatMap fun i =>
    (List.range (bodies.length - (i + 1))).map fun k =>
      (bodies.getD i defBody, bodies.getD (i + 1 + k) defBody)

/-- `checkCollisions` of `minkowski-diff-engine.ts`: all pairs `i < j`. -/
def checkCollisions (distCalc reffed : Bool) (fuel : ℕ) (bodies : List Body)
    (stopOnFirst : Bool) : Option (List (Body × Body)) :=
  collisionsLoop distCalc reffed fuel stopOnFirst (allPairs bodies) []

/-- The body loop of `checkBodyCollision`: for each index except
`ba.index`, run the pair ordered by `index`, with the `stopOnFirst` early
return. -/
def bodyCollisionLoop (distCalc reffed : Bool) (fuel : ℕ) (stopOnFirst : Bool)
    (bodies : List Body) (ba : Body) :
    List ℕ → List (Body × Body) → Option (List (Body × Body))
  | [], acc => some acc
  | i :: rest, acc =>
    if i = ba.index then
      bodyCollisionLoop distCalc reffed fuel stopOnFirst bodies ba rest acc
    else
      let bb := bodies.getD i defBody
      match (if ba.index < bb.index then checkCollisionWrites distCalc reffed fuel ba bb
             else checkCollisionWrites distCalc reffed fuel bb ba) with
      | none => none
      | some w =>
        let acc2 := acc ++ w
        if stopOnFirst ∧ acc2.length ≠ 0 then some acc2
        else bodyCollisionLoop distCalc reffed fuel stopOnFirst bodies ba rest acc2

/-- `checkBodyCollision` of `minkowski-diff-engine.ts`: one body against
every other body. -/
def checkBodyCollision (distCalc reffed : Bool) (fuel : ℕ) (bodies : List Body)
    (ba : Body) (stopOnFirst : Bool) : Option (List (Body × Body)) :=
  bodyCollisionLoop distCalc reffed fuel stopOnFirst bodies ba
    (List.range bodies.length) []

/-- `pointInBody` of `minkowski-diff-engine.ts`: translate the body's ring
by its position and run `pointInPolyConvex` (with the method's default
epsilon `1e-10`).  The stale provenance fields of the reused buffer are
never read; modelled as `none`. -/
def pointInBody (pt : Vec2) (b : Body) : Bool :=
  pointInPolyConvex pt
    ⟨b.v.map fun p => ⟨p.x + b.pos.x, p.y + b.pos.y, none, none⟩, b.v.length⟩
    epsDef

/-- `Math.sign`. -/
def sgn (q : ℚ) : ℚ := if 0 < q then 1 else if q < 0 then -1 else 0

/-- `Number.EPSILON`. -/
def numEPS : ℚ := 1 / 2 ^ 52

/-- The hit test of the binary-search scan in `lineCast` (lines 372–383):
does any body not yet hit in this cast contain the probe point?  The two
`break` shortcuts fire exactly when `hit` becomes true, so the scan computes
exactly this disjunction. -/
def castHitAny (castId : ℤ) (bodies : List Body) (pt : Vec2) : Bool :=
  bodies.any fun b =>
    decide (b.castId ≠ castId) && pointInBb pt b && pointInBody pt b

/-- State of the adaptive binary search of `lineCast`: the search step
`tv4`, the probe point `tv5`, the divisor `m` and the last hit status. -/
structure BsState where
  tv4 : Vec2
  tv5 : Vec2
  m : ℚ
  wasHit : Bool
deriving DecidableEq, Repr

/-- One iteration of the binary-search loop (lines 365–389): divide the
step by `m` (halving it, reversing direction when `m = -2`), advance the
probe, rescan, and set `m = -2` exactly when the hit status flipped. -/
def bsStep (castId : ℤ) (bodies : List Body) (s : BsState) : BsState :=
  let t4 : Vec2 := ⟨s.tv4.x / s.m, s.tv4.y / s.m⟩
  let t5 : Vec2 := ⟨s.tv5.x + t4.x, s.tv5.y + t4.y⟩
  let hit := castHitAny castId bodies t5
  ⟨t4, t5, if s.wasHit ≠ hit then -2 else 2, hit⟩

/-- The binary-search loop `while (|tv4.x| + |tv4.y| > 0.5)`, fuelled. -/
def bsRun (castId : ℤ) (bodies : List Body) : ℕ → BsState → Option BsState
  | 0, s => if 1 / 2 < |s.tv4.x| + |s.tv4.y| then none else some s
  | fuel + 1, s =>
    if 1 / 2 < |s.tv4.x| + |s.tv4.y| then
      bsRun castId bodies fuel (bsStep castId bodies s)
    else some s

/-- The recording scan of the fine walk (lines 398–409): every not-yet-hit
body containing the walk point is marked with the current `castId` and a
cast result `(body, point)` is recorded, in body order. -/
def fineScan (castId : ℤ) (pt : Vec2) :
    List Body → List Body × List (Body × Vec2)
  | [] => ([], [])
  | b :: rest =>
    if decide (b.castId ≠ castId) && pointInBb pt b && pointInBody pt b then
      let b2 := { b with castId := castId }
      let (bs, recs) := fineScan castId pt rest
      (b2 :: bs, (b2, pt) :: recs)
    else
      let (bs, recs) := fineScan castId pt rest
      (b :: bs, recs)

/-- State of the fine walk: the (possibly re-marked) bodies, the records
produced so far, and the walk point `tv5`. -/
structure FwState where
  bodies : List Body
  recs : List (Body × Vec2)
  tv5 : Vec2
deriving DecidableEq, Repr

/-- The fine-walk loop (lines 392–412): while both components of
`tv3 - tv5` keep their initial signs `sx`, `sy`, scan-and-record at `tv5`,
then advance `tv5` by the unit vector `tv2`. -/
def fwRun (castId : ℤ) (tv2 tv3 : Vec2) (sx sy : ℚ) :
    ℕ → FwState → Option FwState
  | 0, s =>
    if sgn (tv3.x - s.tv5.x) = sx ∧ sgn (tv3.y - s.tv5.y) = sy then none
    else some s
  | fuel + 1, s =>
    if sgn (tv3.x - s.tv5.x) = sx ∧ sgn (tv3.y - s.tv5.y) = sy then
      let (bs, recs) := fineScan castId s.tv5 s.bodies
      fwRun castId tv2 tv3 sx sy fuel
        ⟨bs, s.recs ++ recs, ⟨s.tv5.x + tv2.x, s.tv5.y + tv2.y⟩⟩
    else some s

/-- Bodies plus cast records: the mutable state a coarse sample mutates. -/
structure CastScanState where
  bodies : List Body
  recs : List (Body × Vec2)
deriving DecidableEq, Repr

/-- The body scan of one coarse sample (lines 347–414): for each body not
yet hit, if the coarse point `tv3` is inside it, run the binary search from
`tv3` (step `tv1`) and then the fine walk from its end point towards `tv3`
in unit steps `tv2`, recording hits. -/
def coarseScan (castId : ℤ) (tv1 tv2 tv3 : Vec2) (bsFuel fwFuel : ℕ) :
    List ℕ → CastScanState → Option CastScanState
  | [], st => some st
  | i :: rest, st =>
    let b := st.bodies.getD i defBody
    if b.castId = castId then
      coarseScan castId tv1 tv2 tv3 bsFuel fwFuel rest st
    else if pointInBb tv3 b && pointInBody tv3 b then
      match bsRun castId st.bodies bsFuel ⟨tv1, tv3, -2, true⟩ with
      | none => none
      | some bs =>
        let sx := sgn (tv3.x - bs.tv5.x)
        let sy := sgn (tv3.y - bs.tv5.y)
        match fwRun castId tv2 tv3 sx sy fwFuel ⟨st.bodies, st.recs, bs.tv5⟩ with
        | none => none
        | some fw =>
          coarseScan castId tv1 tv2 tv3 bsFuel fwFuel rest ⟨fw.bodies, fw.recs⟩
    else coarseScan castId tv1 tv2 tv3 bsFuel fwFuel rest st

/-- State of the coarse loop: scan state, the coarse point `tv3`, the
remaining `count`, and a ghost counter of iterations executed (not in the
source; it counts executions of the loop body). -/
structure LcState where
  scan : CastScanState
  tv3 : Vec2
  count : ℚ
  iters : ℕ
deriving DecidableEq, Repr

/-- The coarse loop `while (count > 0)` of `lineCast` (lines 345–419). -/
def lcRun (castId : ℤ) (tv1 tv2 : Vec2) (bsFuel fwFuel : ℕ) :
    ℕ → LcState → Option LcState
  | 0, s => if 0 < s.count then none else some s
  | fuel + 1, s =>
    if 0 < s.count then
      match coarseScan castId tv1 tv2 s.tv3 bsFuel fwFuel
          (List.range s.scan.bodies.length) s.scan with
      | none => none
      | some cs =>
        lcRun castId tv1 tv2 bsFuel fwFuel fuel
          ⟨cs, ⟨s.tv3.x + tv1.x, s.tv3.y + tv1.y⟩, s.count - 1, s.iters + 1⟩
    else some s

/-- `lineCast` of `minkowski-diff-engine.ts`.  The parameter `d` stands for
the value of `Math.sqrt(dx*dx + dy*dy)`: the square root has no exact
rational embedding, so every statement below supplies `d` together with its
defining property `0 ≤ d ∧ d * d = dx*dx + dy*dy` (the radicand is a
perfect square in each concrete run).  With no registered bodies
`minBbAxis` is the infinite `none`; every claim runs with at least one
body, where it is finite.  Returns the updated engine, the cast records in
order, and the ghost coarse-iteration count. -/
def lineCast (e : EngineState) (pfrom pto : Vec2) (d : ℚ)
    (coarseFuel bsFuel fwFuel : ℕ) :
    Option (EngineState × List (Body × Vec2) × ℕ) :=
  let castId := e.castId + 1
  let dx := pto.x - pfrom.x
  let dy := pto.y - pfrom.y
  let step := (e.minBbAxis.getD 0) * (98 / 100)
  let count := d / step + 1 + numEPS
  let tv2 : Vec2 := ⟨dx / d, dy / d⟩
  let tv1 : Vec2 := ⟨tv2.x * step, tv2.y * step⟩
  (lcRun castId tv1 tv2 bsFuel fwFuel coarseFuel ⟨⟨e.bodies, []⟩, pfrom, count, 0⟩).map
    fun s => ({ e with bodies := s.scan.bodies, castId := castId }, s.scan.recs, s.iters)

/-- The zero-distance trigger of the edge `v1 → v2` in
`pointPolyConvexMinDist`: the query point projects into the edge
(`0 ≤ r ≤ 1`) and the squared distance of the perpendicular foot is below
`eps` — exactly the condition of the short-circuit branch of `minDistEdge`
that records a distance of exactly `0`. -/
def nearEdgeCore (eps : ℚ) (v1 v2 pt : Vec2) : Prop :=
  let t1x := v2.x - v1.x
  let t1y := v2.y - v1.y
  let t2x := pt.x - v1.x
  let t2y := pt.y - v1.y
  let mt1 := t1x * t1x + t1y * t1y
  let r := (t1x * t2x + t1y * t2y) / mt1
  0 ≤ r ∧ r ≤ 1 ∧ t2x * t2x + t2y * t2y - r * r * mt1 < eps

instance (eps : ℚ) (v1 v2 pt : Vec2) : Decidable (nearEdgeCore eps v1 v2 pt) := by
  unfold nearEdgeCore
  infer_instance

/-- The zero-distance trigger of edge `i` of the polygon. -/
def nearEdge (pt : Vec2) (poly : ReusablePointArray) (eps : ℚ) (i : ℕ) : Prop :=
  let j := if i = poly.pCount - 1 then 0 else i + 1
  let v1 := getP poly.points i
  let v2 := getP poly.points j
  nearEdgeCore eps ⟨v1.x, v1.y⟩ ⟨v2.x, v2.y⟩ pt

instance (pt : Vec2) (poly : ReusablePointArray) (eps : ℚ) (i : ℕ) :
    Decidable (nearEdge pt poly eps i) := by
  unfold nearEdge
  infer_instance

/-- Written from the spec's words for claim C7 ("any two segments equal
within epsilon in either endpoint order"), to be compared with the source's
sequential `segmentEqual`. -/
def segmentEqualEitherOrder (a b : Segment) (eps : ℚ) : Bool :=
  (vec2Equal a.a b.a eps && vec2Equal a.b b.b eps) ||
  (vec2Equal a.b b.a eps && vec2Equal a.a b.b eps)

/-- The unit-square ring, vertices at `(±0.5, ±0.5)`, counter-clockwise
(the consistent winding under which `pointInPolyConvex`'s negative-side
test means "inside"). -/
def sqRing : List Vec2 :=
  [⟨-1/2, -1/2⟩, ⟨1/2, -1/2⟩, ⟨1/2, 1/2⟩, ⟨-1/2, 1/2⟩]

/-- The unit square as a Minkowski-sum input with provenance, cursor at its
lowest vertex. -/
def sqArr : ReusablePointArrayLp :=
  ⟨[⟨-1/2, -1/2, some 0, none⟩, ⟨1/2, -1/2, some 1, none⟩,
    ⟨1/2, 1/2, some 2, none⟩, ⟨-1/2, 1/2, some 3, none⟩], 4, 0⟩

/-- The end state of the merge of the unit square with itself
(4 iterations, every cross product an exact tie). -/
def sqMergeEnd : MsState :=
  ⟨0, 0, 4, 4,
   [⟨-1, -1, some 0, some 0⟩, ⟨1, -1, some 1, some 1⟩,
    ⟨1, 1, some 2, some 2⟩, ⟨-1, 1, some 3, some 3⟩], 4⟩

/-- Two unit-square bodies at `(0,0)` and `(0.5,0.5)` (claim C2). -/
def dataC2 : List ShapeData := [⟨⟨0, 0⟩, sqRing, "a"⟩, ⟨⟨1/2, 1/2⟩, sqRing, "b"⟩]

/-- Engine after `updateData` with the two overlapping unit squares. -/
def engC2 : EngineState := updateData freshEngine dataC2

/-- First body of `engC2`. -/
def c2A : Body := engC2.bodies.getD 0 defBody

/-- Second body of `engC2`. -/
def c2B : Body := engC2.bodies.getD 1 defBody

/-- A single unit square at the origin (claim C3). -/
def dataC3 : List ShapeData := [⟨⟨0, 0⟩, sqRing, "sq"⟩]

/-- Engine after `updateData` with the single unit square. -/
def engC3 : EngineState := updateData freshEngine dataC3

/-- A single 4×4 square at the origin (claim C8's failing input: large
enough for the fine walk to actually record a hit). -/
def dataC8 : List ShapeData :=
  [⟨⟨0, 0⟩, [⟨-2, -2⟩, ⟨2, -2⟩, ⟨2, 2⟩, ⟨-2, 2⟩], "big"⟩]

/-- Engine after `updateData` with the single 4×4 square. -/
def engC8 : EngineState := updateData freshEngine dataC8

/-- The triangle `(0,0), (1,0), (0,1)`, counter-clockwise (claim C4). -/
def triPoly : ReusablePointArray :=
  ⟨[⟨0, 0, none, none⟩, ⟨1, 0, none, none⟩, ⟨0, 1, none, none⟩], 3⟩

/-- A zeroed `MinDistResult` to pass as the reusable result object. -/
def mdr0 : MinDistResult := ⟨none, none, none, ⟨0, 0⟩⟩

/-- Segment `a` of the C7 counterexample: from `(0,0)` to `(1.8e-10, 0)`. -/
def c7a : Segment := ⟨⟨0, 0⟩, ⟨18/10^11, 0⟩⟩

/-- Segment `b` of the C7 counterexample: from `(0.9e-10, 0)` to `(0,0)`;
crosswise within epsilon of `c7a`, but the first endpoints are also within
epsilon of each other. -/
def c7b : Segment := ⟨⟨9/10^11, 0⟩, ⟨0, 0⟩⟩

/-- An `IntersectionPoint` with recognisable stale fields. -/
def ip9 : IntersectionPoint := ⟨9, 9, 9, 9, false⟩

/-- A stale distance-table entry as left by an earlier distance query
(`pt = (5,7)`), used to exhibit the incomplete reset (claim C9). -/
def staleEntry : BodyBodyDistance := ⟨defBody, defBody, some 3, ⟨1, 2⟩, ⟨5, 7⟩⟩

/-- An engine whose distance table holds the stale entry. -/
def engC9 : EngineState := { freshEngine with distances := [[staleEntry]] }

/-- Ghost invariant of the binary search of `lineCast`, used only by the
termination proof: relative to the coarse point `tv3` and coarse step
`tv1`, the probe `tv5` stays strictly behind `tv3` along each axis of
travel, with slack between the current step size `|tv4|` and
`|tv1| - |tv4|` (stated multiplied through by `tv1` to cover both travel
directions at once); on an axis with no travel the probe never moves; and
the divisor `m` is always `±2`. -/
def bsInv (tv1 tv3 : Vec2) (s : BsState) : Prop :=
  (s.m = 2 ∨ s.m = -2) ∧
  (|s.tv4.x| * |tv1.x| ≤ (tv3.x - s.tv5.x) * tv1.x ∧
    (tv3.x - s.tv5.x) * tv1.x ≤ (|tv1.x| - |s.tv4.x|) * |tv1.x|) ∧
  (|s.tv4.y| * |tv1.y| ≤ (tv3.y - s.tv5.y) * tv1.y ∧
    (tv3.y - s.tv5.y) * tv1.y ≤ (|tv1.y| - |s.tv4.y|) * |tv1.y|) ∧
  (tv1.x = 0 → s.tv4.x = 0 ∧ s.tv5.x = tv3.x) ∧
  (tv1.y = 0 → s.tv4.y = 0 ∧ s.tv5.y = tv3.y)

/-- Each merge iteration emits exactly one vertex and advances the cursors
by one, except that a snapped tie advances both; so the equation
`emitted + ties = ic + jc` is preserved. -/
theorem msAdvance_count (np nq : ℕ) (pdp : ℚ) (v : Vec2D) (s : MsState)
    (h : s.out.length + s.ties = s.ic + s.jc) :
    (msAdvance np nq pdp v s).out.length + (msAdvance np nq pdp v s).ties =
      (msAdvance np nq pdp v s).ic + (msAdvance np nq pdp v s).jc := by
  unfold msAdvance
  dsimp only
  rcases lt_trichotomy pdp 0 with hp | hp | hp
  · simp only [not_le.mpr hp, if_neg, if_false, if_pos hp.le, if_neg hp.ne,
      List.length_append, List.length_cons, List.length_nil]
    omega
  · subst hp
    simp only [le_refl, if_pos, List.length_append, List.length_cons,
      List.length_nil, if_true]
    omega
  · simp only [if_pos hp.le, if_neg (not_le.mpr hp), if_neg hp.ne.symm,
      List.length_append, List.length_cons, List.length_nil]
    omega

/-- The cursor-count equation transfers from `msAdvance` to `msStep`. -/
theorem msStep_count (p q : ReusablePointArrayLp) (eps : ℚ) (s : MsState)
    (h : s.out.length + s.ties = s.ic + s.jc) :
    (msStep p q eps s).out.length + (msStep p q eps s).ties =
      (msStep p q eps s).ic + (msStep p q eps s).jc := by
  unfold msStep
  exact msAdvance_count _ _ _ _ _ h

/-- Along any completed run of the merge loop the emit/advance equation is
preserved and the exit condition forces both advance counters past the
input sizes. -/
theorem msRun_count (p q : ReusablePointArrayLp) (eps : ℚ) :
    ∀ fuel s t, s.out.length + s.ties = s.ic + s.jc →
      msRun p q eps fuel s = some t →
      t.out.length + t.ties = t.ic + t.jc ∧ p.pCount ≤ t.ic ∧ q.pCount ≤ t.jc := by
  intro fuel
  induction fuel with
  | zero =>
    intro s t hs hr
    unfold msRun at hr
    split at hr
    · exact absurd hr (by simp)
    · obtain rfl : s = t := by simpa using hr
      constructor
      · exact hs
      · omega
  | succ fuel ih =>
    intro s t hs hr
    unfold msRun at hr
    split at hr
    · exact ih (msStep p q eps s) t (msStep_count p q eps s hs) hr
    · obtain rfl : s = t := by simpa using hr
      constructor
      · exact hs
      · omega

/-- C1 (counterexample): merging the unit square with itself — consistent
winding, cursors at the precomputed lowest-vertex indices — terminates with
`ic + jc = 4 + 4` total advances but writes only `4` result vertices, not
`n + m = 8`: every iteration is an exact snapped tie. -/
theorem C1_counterexample :
    msRun sqArr sqArr epsDef 8 (msInit sqArr sqArr) = some sqMergeEnd ∧
    sqMergeEnd.out.length = 4 ∧
    sqMergeEnd.ic + sqMergeEnd.jc = sqArr.pCount + sqArr.pCount ∧
    indexOfLowestPoint (sqArr.points.map fun v => ⟨v.x, v.y⟩) = sqArr.iLowest ∧
    sqMergeEnd.out.length ≠ sqArr.pCount + sqArr.pCount :=
  ⟨by decide, by decide, by decide, by decide, by decide⟩

/-- C1 (amended): whenever the `minkowskiSumConvex` merge loop completes,
both advance counters have reached the respective input sizes and the
number of emitted vertices equals the total cursor advances minus the tie
iterations; so the result polygon has `n + m` vertices only when no snapped
cross product is an exact tie, and strictly fewer when collinear tied edges
occur (4 instead of 8 for two axis-aligned unit squares). -/
theorem C1_merge_vertex_count (p q : ReusablePointArrayLp) (eps : ℚ)
    (fuel : ℕ) (t : MsState)
    (h : msRun p q eps fuel (msInit p q) = some t) :
    t.out.length + t.ties = t.ic + t.jc ∧
      p.pCount ≤ t.ic ∧ q.pCount ≤ t.jc :=
  msRun_count p q eps fuel (msInit p q) t (by simp [msInit]) h

/-- Witness for C1: the square-square merge run instantiates the amended
statement. -/
theorem C1_merge_vertex_count_witness :
    sqMergeEnd.out.length + sqMergeEnd.ties = sqMergeEnd.ic + sqMergeEnd.jc ∧
      sqArr.pCount ≤ sqMergeEnd.ic ∧ sqArr.pCount ≤ sqMergeEnd.jc :=
  C1_merge_vertex_count sqArr sqArr epsDef 8 sqMergeEnd (by decide)

/-- C2 (counterexample): for the unit squares at `(0,0)` and `(0.5,0.5)`
with distance calculation enabled, the pairwise check reports the collision
but records separating distance `sqrt(1/4) = 1/2`, not `0`. -/
theorem C2_counterexample :
    checkCollisionWrites true false 20 c2A c2B = some [(c2A, c2B)] ∧
    (checkCollisionDist false 20 c2A c2B).map MinDistResult.d2 =
      some (some (1/4)) ∧
    jsSqrt (1/4) = 1/2 ∧ (1/2 : ℝ) ≠ 0 := by
  refine ⟨by decide, by decide, ?_, by norm_num⟩
  unfold jsSqrt
  rw [show ((1/4 : ℚ) : ℝ) = (1/2 : ℝ) ^ 2 by norm_num]
  exact Real.sqrt_sq (by norm_num)

/-- C2 (amended): the overlapping unit squares collide, and the recorded
separating distance is the penetration distance `1/2` (distance from the
origin to the boundary of the Minkowski-difference polygon), with nearest
boundary point `(1/2, 0)`, giving separating vector `(-1/2, 0)`. -/
theorem C2_squares_report :
    checkCollisionWrites true false 20 c2A c2B = some [(c2A, c2B)] ∧
    (checkCollisionDist false 20 c2A c2B).map
      (fun m => (m.d2, m.minPoint)) = some (some (1/4), ⟨1/2, 0⟩) ∧
    jsSqrt (1/4) = 1/2 := by
  refine ⟨by decide, by decide, ?_⟩
  unfold jsSqrt
  rw [show ((1/4 : ℚ) : ℝ) = (1/2 : ℝ) ^ 2 by norm_num]
  exact Real.sqrt_sq (by norm_num)

/-- C3: casting the segment `(-10,0) → (10,0)` (length 20) against the
single unit square at the origin records nothing: the coarse sample at
`(-0.2, 0)` is inside the body, but the binary search stops at the outside
point `(-0.69, 0)` and the unit-step fine walk overshoots the coarse point
after a single (missing) probe, so `castResultCount` stays `0`. -/
theorem C3_lineCast_records_nothing :
    (lineCast engC3 ⟨-10, 0⟩ ⟨10, 0⟩ 20 30 10 10).map
      (fun r => r.2.1.length) = some 0 ∧
    (20 : ℚ) * 20 = (10 - -10) * (10 - -10) + (0 - 0) * (0 - 0) ∧
    pointInBody ⟨-1/5, 0⟩ (engC3.bodies.getD 0 defBody) = true :=
  ⟨by decide, by decide, by decide⟩

/-- The `castResults` prefill loop of `updateData`, started from a fresh
engine, leaves the array one slot short: `n + 1` registered bodies yield
only `n` slots. -/
theorem castResultsLenAfter_zero : ∀ n : ℕ, castResultsLenAfter 0 (n + 1) = n := by
  intro n
  induction n with
  | zero => rfl
  | succ n ih =>
    unfold castResultsLenAfter at ih ⊢
    rw [List.range_succ, List.foldl_append, ih]
    simp only [List.foldl_cons, List.foldl_nil]
    rw [if_pos (Nat.lt_succ_self n)]

/-- C8: after `updateData` with `N ≥ 1` bodies from a fresh engine,
`castResults` holds `N - 1` slots, not at least `N`: with the single 4×4
square it holds `0` slots, yet the cast `(-10,0) → (10,0)` records one hit,
whose write `castResults[0]` is out of bounds. -/
theorem C8_castResults_one_slot_short :
    (∀ n : ℕ, castResultsLenAfter 0 (n + 1) = n) ∧
    engC8.castResultsLen = 0 ∧
    (lineCast engC8 ⟨-10, 0⟩ ⟨10, 0⟩ 20 10 10 10).map
      (fun r => r.2.1.length) = some 1 ∧
    ¬ (1 : ℕ) ≤ engC8.castResultsLen :=
  ⟨castResultsLenAfter_zero, by decide, by decide, by decide⟩

/-- C9: `updateData` does not fully reset a distance-table entry: the
duplicated `dist.pt.y = 0` assignment leaves `pt.x` stale, so an entry
holding `pt = (5,7)` from an earlier query comes out of the rebuild as
`pt = (5,0)`, with only `d` (to NaN) and `dv` (to zero) reset. -/
theorem C9_reset_keeps_stale_pt_x :
    (updateData engC9 dataC2).distances =
      [[⟨c2A, c2B, none, ⟨0, 0⟩, ⟨5, 0⟩⟩]] ∧
    (⟨5, 0⟩ : Vec2) ≠ ⟨0, 0⟩ :=
  ⟨by decide, by decide⟩

/-- C10: `updateShapePos` with an id matching no body's `nodeId` is a
silent no-op on the entire engine state; with a matching id it updates
exactly the first matching body's position by `(dx, dy)`, leaving every
other body and every other engine field unchanged (the result is
`bodies.set k` of the translated body). -/
theorem C10_updateShapePos (e : EngineState) (id : String) (dx dy : ℚ) :
    ((∀ b ∈ e.bodies, b.nodeId ≠ id) → updateShapePos e id dx dy = e) ∧
    (∀ k, e.bodies.findIdx? (fun b => b.nodeId == id) = some k →
      updateShapePos e id dx dy =
        { e with
          bodies := e.bodies.set k (translateBody (e.bodies.getD k defBody) dx dy) }) := by
  constructor
  · intro hnone
    unfold updateShapePos
    have hfi : e.bodies.findIdx? (fun b => b.nodeId == id) = none := by
      rw [List.findIdx?_eq_none_iff]
      intro b hb
      simpa using hnone b hb
    rw [hfi]
  · intro k hk
    unfold updateShapePos
    rw [hk]

/-- Witness for C10: on the two-square engine, the unmatched id `"zz"` is a
no-op and the id `"b"` translates exactly body 1. -/
theorem C10_updateShapePos_witness :
    updateShapePos engC2 "zz" 3 4 = engC2 ∧
    updateShapePos engC2 "b" 3 4 =
      { engC2 with
        bodies := engC2.bodies.set 1 (translateBody (engC2.bodies.getD 1 defBody) 3 4) } :=
  ⟨(C10_updateShapePos engC2 "zz" 3 4).1 (by decide),
   (C10_updateShapePos engC2 "b" 3 4).2 1 (by decide)⟩

/-- C7 (counterexample): the segments `(0,0)→(1.8e-10,0)` and
`(0.9e-10,0)→(0,0)` are epsilon-equal in the swapped endpoint order, yet
`segmentEqual` rejects them (its first-endpoint comparison matches, so the
swapped pairing is never tried) and `segmentIntersection` falls through to
the general solve, returning invalid instead of the special-cased
midpoint. -/
theorem C7_counterexample :
    segmentEqualEitherOrder c7a c7b epsDef = true ∧
    segmentEqual c7a c7b epsDef = false ∧
    (segmentIntersection c7a c7b ip9 epsDef).valid = false :=
  ⟨by decide, by decide, by decide⟩

/-- C7 (amended): `segmentIntersection(s, s)` returns valid with the exact
midpoint of `s` and parameters `(s, t) = (1, 0)`; and every pair of
segments that the source's sequential `segmentEqual` check accepts (second
endpoints epsilon-equal whenever the first endpoints are, swapped pairing
tried only otherwise) takes this special case instead of the general 2×2
solve. -/
theorem C7_segment_special (s a b : Segment) (ip0 ip1 : IntersectionPoint)
    (eps : ℚ) (hs : s.a ≠ s.b) (hab : segmentEqual a b eps = true) :
    segmentIntersection s s ip0 epsDef =
      ⟨s.a.x + (s.b.x - s.a.x) / 2, s.a.y + (s.b.y - s.a.y) / 2, 1, 0, true⟩ ∧
    segmentIntersection a b ip1 eps =
      ⟨a.a.x + (a.b.x - a.a.x) / 2, a.a.y + (a.b.y - a.a.y) / 2, 1, 0, true⟩ := by
  constructor
  · have hss : segmentEqual s s epsDef = true := by
      simp [segmentEqual, vec2Equal, epsDef]
    unfold segmentIntersection
    rw [if_pos hss]
  · unfold segmentIntersection
    rw [if_pos hab]

/-- Witness for C7: the diagonal segment `(0,0)→(2,2)` against itself, and
the pair `c7a, c7a` accepted by `segmentEqual`. -/
theorem C7_segment_special_witness :
    segmentIntersection ⟨⟨0, 0⟩, ⟨2, 2⟩⟩ ⟨⟨0, 0⟩, ⟨2, 2⟩⟩ ip9 epsDef =
      ⟨0 + (2 - 0) / 2, 0 + (2 - 0) / 2, 1, 0, true⟩ ∧
    segmentIntersection c7a c7a ip9 epsDef =
      ⟨c7a.a.x + (c7a.b.x - c7a.a.x) / 2, c7a.a.y + (c7a.b.y - c7a.a.y) / 2,
        1, 0, true⟩ :=
  C7_segment_special ⟨⟨0, 0⟩, ⟨2, 2⟩⟩ c7a c7a ip9 ip9 epsDef (by decide) (by decide)

/-- A single `checkCollision` call writes at most the one ordered pair it
was handed. -/
theorem checkCollisionWrites_mem (dc rf : Bool) (fuel : ℕ) (ba bb : Body)
    (w : List (Body × Body)) (pr : Body × Body)
    (hw : checkCollisionWrites dc rf fuel ba bb = some w) (hpr : pr ∈ w) :
    pr = (ba, bb) := by
  unfold checkCollisionWrites at hw
  split at hw
  · rcases Option.map_eq_some'.mp hw with ⟨msr, _, rfl⟩
    split at hpr
    · simpa using hpr
    · simp at hpr
  · obtain rfl : ([] : List (Body × Body)) = w := by simpa using hw
    simp at hpr

/-- The pair loop of `checkCollisions` preserves the ordering of written
collision records. -/
theorem collisionsLoop_order (dc rf : Bool) (fuel : ℕ) (st : Bool) :
    ∀ (pairs acc res : List (Body × Body)),
      (∀ pr ∈ acc, pr.1.index < pr.2.index) →
      (∀ pr ∈ pairs, pr.1.index < pr.2.index) →
      collisionsLoop dc rf fuel st pairs acc = some res →
      ∀ pr ∈ res, pr.1.index < pr.2.index := by
  intro pairs
  induction pairs with
  | nil =>
    intro acc res hacc _ hr
    unfold collisionsLoop at hr
    obtain rfl : acc = res := by simpa using hr
    exact hacc
  | cons hd rest ih =>
    intro acc res hacc hpairs hr
    obtain ⟨ba, bb⟩ := hd
    unfold collisionsLoop at hr
    cases hcw : checkCollisionWrites dc rf fuel ba bb with
    | none => rw [hcw] at hr; exact absurd hr (by simp)
    | some w =>
      rw [hcw] at hr
      dsimp only at hr
      have hacc2 : ∀ pr ∈ acc ++ w, pr.1.index < pr.2.index := by
        intro pr hpr
        rcases List.mem_append.mp hpr with hpr | hpr
        · exact hacc pr hpr
        · have := checkCollisionWrites_mem dc rf fuel ba bb w pr hcw hpr
          subst this
          exact hpairs (ba, bb) (by simp)
      split at hr
      · obtain rfl : acc ++ w = res := by simpa using hr
        exact hacc2
      · exact ih _ _ hacc2 (fun pr hpr => hpairs pr (List.mem_cons_of_mem _ hpr)) hr

/-- Under the post-`updateData` invariant `body[k].index = k`, every pair
`checkCollisions` enumerates is ordered. -/
theorem allPairs_order (bodies : List Body)
    (h : ∀ k, k < bodies.length → (bodies.getD k defBody).index = k) :
    ∀ pr ∈ allPairs bodies, pr.1.index < pr.2.index := by
  intro pr hpr
  unfold allPairs at hpr
  simp only [List.mem_flatMap, List.mem_map, List.mem_range] at hpr
  obtain ⟨i, hi, k, hk, rfl⟩ := hpr
  have hj : i + 1 + k < bodies.length := by omega
  simp only [h i hi, h _ hj]
  omega

/-- The body loop of `checkBodyCollision` preserves the ordering of written
collision records. -/
theorem bodyCollisionLoop_order (dc rf : Bool) (fuel : ℕ) (st : Bool)
    (bodies : List Body) (ba : Body)
    (h : ∀ k, k < bodies.length → (bodies.getD k defBody).index = k) :
    ∀ (L : List ℕ) (acc res : List (Body × Body)),
      (∀ i ∈ L, i < bodies.length) →
      (∀ pr ∈ acc, pr.1.index < pr.2.index) →
      bodyCollisionLoop dc rf fuel st bodies ba L acc = some res →
      ∀ pr ∈ res, pr.1.index < pr.2.index := by
  intro L
  induction L with
  | nil =>
    intro acc res _ hacc hr
    unfold bodyCollisionLoop at hr
    obtain rfl : acc = res := by simpa using hr
    exact hacc
  | cons i rest ih =>
    intro acc res hL hacc hr
    unfold bodyCollisionLoop at hr
    by_cases hieq : i = ba.index
    · rw [if_pos hieq] at hr
      exact ih _ _ (fun m hm => hL m (List.mem_cons_of_mem _ hm)) hacc hr
    · rw [if_neg hieq] at hr
      dsimp only at hr
      have hbi : (bodies.getD i defBody).index = i := h i (hL i (by simp))
      by_cases hcmp : ba.index < (bodies.getD i defBody).index
      · rw [if_pos hcmp] at hr
        cases hcw : checkCollisionWrites dc rf fuel ba (bodies.getD i defBody) with
        | none => rw [hcw] at hr; exact absurd hr (by simp)
        | some w =>
          rw [hcw] at hr
          dsimp only at hr
          have hacc2 : ∀ pr ∈ acc ++ w, pr.1.index < pr.2.index := by
            intro pr hpr
            rcases List.mem_append.mp hpr with hpr | hpr
            · exact hacc pr hpr
            · have := checkCollisionWrites_mem dc rf fuel _ _ w pr hcw hpr
              subst this
              exact hcmp
          split at hr
          · obtain rfl : acc ++ w = res := by simpa using hr
            exact hacc2
          · exact ih _ _ (fun m hm => hL m (List.mem_cons_of_mem _ hm)) hacc2 hr
      · rw [if_neg hcmp] at hr
        cases hcw : checkCollisionWrites dc rf fuel (bodies.getD i defBody) ba with
        | none => rw [hcw] at hr; exact absurd hr (by simp)
        | some w =>
          rw [hcw] at hr
          dsimp only at hr
          have hacc2 : ∀ pr ∈ acc ++ w, pr.1.index < pr.2.index := by
            intro pr hpr
            rcases List.mem_append.mp hpr with hpr | hpr
            · exact hacc pr hpr
            · have := checkCollisionWrites_mem dc rf fuel _ _ w pr hcw hpr
              subst this
              have : (bodies.getD i defBody).index ≠ ba.index := by
                rw [hbi]; exact hieq
              dsimp only
              omega
          split at hr
          · obtain rfl : acc ++ w = res := by simpa using hr
            exact hacc2
          · exact ih _ _ (fun m hm => hL m (List.mem_cons_of_mem _ hm)) hacc2 hr

/-- C6: after `updateData` (so `body[k].index = k`), every collision record
written by any of the three query variants — all pairs, one body against
all, a specific pair of bodies with distinct indices — satisfies
`a.index < b.index`. -/
theorem C6_collision_pairs_ordered (dc rf : Bool) (fuel : ℕ)
    (bodies : List Body)
    (h : ∀ k, k < bodies.length → (bodies.getD k defBody).index = k) :
    (∀ (st : Bool) (res : List (Body × Body)),
        checkCollisions dc rf fuel bodies st = some res →
        ∀ pr ∈ res, pr.1.index < pr.2.index) ∧
    (∀ (ba : Body) (st : Bool) (res : List (Body × Body)),
        checkBodyCollision dc rf fuel bodies ba st = some res →
        ∀ pr ∈ res, pr.1.index < pr.2.index) ∧
    (∀ (ba bb : Body), ba.index ≠ bb.index →
        ∀ res, checkBodyBodyCollision dc rf fuel ba bb = some res →
        ∀ pr ∈ res, pr.1.index < pr.2.index) := by
  refine ⟨?_, ?_, ?_⟩
  · intro st res hr
    exact collisionsLoop_order dc rf fuel st (allPairs bodies) [] res
      (by simp) (allPairs_order bodies h) hr
  · intro ba st res hr
    exact bodyCollisionLoop_order dc rf fuel st bodies ba h
      (List.range bodies.length) [] res (by simp) (by simp) hr
  · intro ba bb hne res hr pr hpr
    unfold checkBodyBodyCollision at hr
    by_cases hcmp : ba.index < bb.index
    · rw [if_pos hcmp] at hr
      have := checkCollisionWrites_mem dc rf fuel ba bb res pr hr hpr
      subst this
      exact hcmp
    · rw [if_neg hcmp] at hr
      have := checkCollisionWrites_mem dc rf fuel bb ba res pr hr hpr
      subst this
      simp only []
      omega

/-- Witness for C6: the two-square engine run through `checkCollisions`
writes the single record `(c2A, c2B)` and it is ordered. -/
theorem C6_collision_pairs_ordered_witness : c2A.index < c2B.index :=
  (C6_collision_pairs_ordered true false 20 engC2.bodies (by decide)).1
    false [(c2A, c2B)] (by decide) (c2A, c2B) (by simp)

/-- One `minDistEdge` evaluation: the running minimum stays nonnegative,
and it is exactly `0` after the step iff it already was or this edge
triggers the near-zero short circuit. -/
theorem minDistEdge_zero (eps : ℚ) (heps : 0 < eps) (i j : ℕ)
    (v1 v2 pt : Vec2) (acc : MinDistResult)
    (hacc : ∀ x, acc.d2 = some x → 0 ≤ x) :
    (∀ x, (minDistEdge eps i j v1 v2 pt acc).d2 = some x → 0 ≤ x) ∧
    ((minDistEdge eps i j v1 v2 pt acc).d2 = some 0 ↔
      (acc.d2 = some 0 ∨ nearEdgeCore eps v1 v2 pt)) := by
  unfold minDistEdge nearEdgeCore
  dsimp only
  split_ifs with hr hov hr1 hov1 hb hov2
  · -- r < 0, overwrite with the squared distance to v1
    constructor
    · intro x hx
      obtain rfl : _ = x := by simpa using hx
      exact add_nonneg (mul_self_nonneg _) (mul_self_nonneg _)
    · constructor
      · intro h0
        have h0 : (pt.x - v1.x) * (pt.x - v1.x) + (pt.y - v1.y) * (pt.y - v1.y) = 0 := by
          simpa using h0
        have hx : pt.x - v1.x = 0 := by
          nlinarith [mul_self_nonneg (pt.x - v1.x), mul_self_nonneg (pt.y - v1.y)]
        have hy : pt.y - v1.y = 0 := by
          nlinarith [mul_self_nonneg (pt.x - v1.x), mul_self_nonneg (pt.y - v1.y)]
        rw [hx, hy] at hr
        simp at hr
      · rintro (h0 | hne)
        · rw [h0] at hov
          simp only [ltOpt, decide_eq_true_eq] at hov
          exfalso
          nlinarith [mul_self_nonneg (pt.x - v1.x), mul_self_nonneg (pt.y - v1.y)]
        · exact absurd hne.1 (by linarith)
  · -- r < 0, keep the accumulator
    refine ⟨hacc, ?_⟩
    constructor
    · exact Or.inl
    · rintro (h0 | hne)
      · exact h0
      · exact absurd hne.1 (by linarith)
  · -- 1 < r, overwrite with the squared distance to v2
    constructor
    · intro x hx
      obtain rfl : _ = x := by simpa using hx
      exact add_nonneg (mul_self_nonneg _) (mul_self_nonneg _)
    · constructor
      · intro h0
        have h0 : (pt.x - v2.x) * (pt.x - v2.x) + (pt.y - v2.y) * (pt.y - v2.y) = 0 := by
          simpa using h0
        have hpx : pt.x = v2.x := by
          nlinarith [mul_self_nonneg (pt.x - v2.x), mul_self_nonneg (pt.y - v2.y)]
        have hpy : pt.y = v2.y := by
          nlinarith [mul_self_nonneg (pt.x - v2.x), mul_self_nonneg (pt.y - v2.y)]
        rw [hpx, hpy] at hr1
        rcases eq_or_ne ((v2.x - v1.x) * (v2.x - v1.x) + (v2.y - v1.y) * (v2.y - v1.y)) 0 with hd | hd
        · rw [hd, div_zero] at hr1
          linarith
        · rw [div_self hd] at hr1
          linarith
      · rintro (h0 | hne)
        · rw [h0] at hov1
          simp only [ltOpt, decide_eq_true_eq] at hov1
          exfalso
          nlinarith [mul_self_nonneg (pt.x - v2.x), mul_self_nonneg (pt.y - v2.y)]
        · exact absurd hne.2.1 (by linarith)
  · -- 1 < r, keep the accumulator
    refine ⟨hacc, ?_⟩
    constructor
    · exact Or.inl
    · rintro (h0 | hne)
      · exact h0
      · exact absurd hne.2.1 (by linarith)
  · -- perpendicular foot with squared distance below eps: record exactly 0
    refine ⟨?_, ?_⟩
    · intro x hx
      obtain rfl : (0 : ℚ) = x := by simpa using hx
      exact le_refl 0
    · exact iff_of_true rfl (Or.inr ⟨le_of_not_lt hr, le_of_not_lt hr1, hb⟩)
  · -- perpendicular foot at or above eps, overwrite
    constructor
    · intro x hx
      obtain rfl : _ = x := by simpa using hx
      linarith [le_of_not_lt hb]
    · constructor
      · intro h0
        dsimp only at h0
        rw [Option.some_inj] at h0
        exfalso
        have hle := le_of_not_lt hb
        linarith
      · rintro (h0 | hne)
        · rw [h0] at hov2
          simp only [ltOpt, decide_eq_true_eq] at hov2
          exfalso
          linarith [le_of_not_lt hb]
        · exact absurd hne.2.2 (by linarith [le_of_not_lt hb])
  · -- perpendicular foot at or above eps, keep the accumulator
    refine ⟨hacc, ?_⟩
    constructor
    · exact Or.inl
    · rintro (h0 | hne)
      · exact h0
      · exact absurd hne.2.2 (by linarith [le_of_not_lt hb])

/-- Lift of `minDistEdge_zero` to the polygon edge step. -/
theorem minDistStep_zero (pt : Vec2) (poly : ReusablePointArray) (eps : ℚ)
    (heps : 0 < eps) (acc : MinDistResult) (i : ℕ)
    (hacc : ∀ x, acc.d2 = some x → 0 ≤ x) :
    (∀ x, (minDistStep pt poly eps acc i).d2 = some x → 0 ≤ x) ∧
    ((minDistStep pt poly eps acc i).d2 = some 0 ↔
      (acc.d2 = some 0 ∨ nearEdge pt poly eps i)) := by
  unfold minDistStep nearEdge
  dsimp only
  exact minDistEdge_zero eps heps i _ _ _ pt acc hacc

/-- Along the edge fold of `pointPolyConvexMinDist`, the result is exactly
`0` iff the start already was or some processed edge triggers the near-zero
short circuit. -/
theorem minDist_foldl_zero (pt : Vec2) (poly : ReusablePointArray) (eps : ℚ)
    (heps : 0 < eps) :
    ∀ (L : List ℕ) (acc : MinDistResult), (∀ x, acc.d2 = some x → 0 ≤ x) →
      ((L.foldl (minDistStep pt poly eps) acc).d2 = some 0 ↔
        (acc.d2 = some 0 ∨ ∃ i ∈ L, nearEdge pt poly eps i)) := by
  intro L
  induction L with
  | nil => intro acc _; simp
  | cons i rest ih =>
    intro acc hacc
    simp only [List.foldl_cons]
    obtain ⟨hnn, hiff⟩ := minDistStep_zero pt poly eps heps acc i hacc
    rw [ih _ hnn, hiff, List.exists_mem_cons_iff]
    tauto

/-- C4 (counterexample): the interior point `(1/4, 1/4)` of the triangle
`(0,0),(1,0),(0,1)` is inside by `pointInPolyConvex`, yet its minimum
distance to the polygon boundary is `sqrt(1/16) = 1/4 ≠ 0`: zero distance
is not necessary for containment, so the claimed equivalence fails. -/
theorem C4_counterexample :
    pointInPolyConvex ⟨1/4, 1/4⟩ triPoly epsDef = true ∧
    (pointPolyConvexMinDist ⟨1/4, 1/4⟩ triPoly mdr0 epsDef).d2 = some (1/16) ∧
    jsSqrt (1/16) = 1/4 ∧ (1/4 : ℝ) ≠ 0 := by
  refine ⟨by decide, by decide, ?_, by norm_num⟩
  unfold jsSqrt
  rw [show ((1/16 : ℚ) : ℝ) = (1/4 : ℝ) ^ 2 by norm_num]
  exact Real.sqrt_sq (by norm_num)

/-- C4 (amended): for every polygon and query point, the distance returned
by `pointPolyConvexMinDist` is exactly `0` iff some edge's perpendicular
projection parameter lies in `[0, 1]` with squared foot distance below
epsilon (the point is within `sqrt eps` of some edge segment).
Point-in-polygon is neither necessary nor sufficient for a zero distance. -/
theorem C4_zero_dist_iff (pt : Vec2) (poly : ReusablePointArray)
    (ret0 : MinDistResult) (eps : ℚ) (heps : 0 < eps) :
    (pointPolyConvexMinDist pt poly ret0 eps).d2 = some 0 ↔
      ∃ i, i < poly.pCount ∧ nearEdge pt poly eps i := by
  unfold pointPolyConvexMinDist
  rw [minDist_foldl_zero pt poly eps heps (List.range poly.pCount)
    ⟨none, none, none, ret0.minPoint⟩ (by intro x hx; simp at hx)]
  simp [List.mem_range]

/-- Witness for C4: the point `(1/2, -1e-6)` lies `1e-6` outside the bottom
edge of the triangle; its squared foot distance `1e-12` is below epsilon,
so the recorded distance is exactly `0` (even though `pointInPolyConvex`
reports it outside). -/
theorem C4_zero_dist_iff_witness :
    (0 : ℚ) < epsDef ∧
    ((pointPolyConvexMinDist ⟨1/2, -(1/10^6)⟩ triPoly mdr0 epsDef).d2 = some 0 ↔
      ∃ i, i < triPoly.pCount ∧ nearEdge ⟨1/2, -(1/10^6)⟩ triPoly epsDef i) :=
  ⟨by decide, C4_zero_dist_iff ⟨1/2, -(1/10^6)⟩ triPoly mdr0 epsDef (by decide)⟩

/-- Each binary-search iteration halves the step size `|dx| + |dy|` and
keeps the divisor at `±2`. -/
theorem bsStep_size (castId : ℤ) (bodies : List Body) (s : BsState)
    (hm : s.m = 2 ∨ s.m = -2) :
    (|(bsStep castId bodies s).tv4.x| + |(bsStep castId bodies s).tv4.y| =
      (|s.tv4.x| + |s.tv4.y|) / 2) ∧
    ((bsStep castId bodies s).m = 2 ∨ (bsStep castId bodies s).m = -2) := by
  unfold bsStep
  dsimp only
  constructor
  · rcases hm with hm | hm <;> rw [hm] <;>
      rw [abs_div, abs_div] <;>
      simp [abs_of_pos, abs_of_neg] <;> ring
  · split <;> simp

/-- The binary-search loop of `lineCast` completes once the fuel covers the
number of halvings needed to bring the step size to `1/2`. -/
theorem bsRun_some (castId : ℤ) (bodies : List Body) :
    ∀ (k : ℕ) (s : BsState), (s.m = 2 ∨ s.m = -2) →
      |s.tv4.x| + |s.tv4.y| ≤ 2 ^ k * (1 / 2) →
      ∃ t, bsRun castId bodies k s = some t := by
  intro k
  induction k with
  | zero =>
    intro s _ hsz
    unfold bsRun
    rw [if_neg (by rw [pow_zero, one_mul] at hsz; exact not_lt.mpr hsz)]
    exact ⟨s, rfl⟩
  | succ k ih =>
    intro s hm hsz
    unfold bsRun
    split_ifs with hc
    · obtain ⟨hhalf, hm2⟩ := bsStep_size castId bodies s hm
      apply ih _ hm2
      rw [hhalf]
      have hp : (2 : ℚ) ^ (k + 1) = 2 * 2 ^ k := by ring
      rw [hp] at hsz
      linarith
    · exact ⟨s, rfl⟩

/-- One binary-search iteration preserves the behind-invariant. -/
theorem bsStep_inv (castId : ℤ) (bodies : List Body) (tv1 tv3 : Vec2)
    (s : BsState) (h : bsInv tv1 tv3 s) :
    bsInv tv1 tv3 (bsStep castId bodies s) := by
  obtain ⟨hm, ⟨hxa, hxb⟩, ⟨hya, hyb⟩, hx0, hy0⟩ := h
  unfold bsStep bsInv
  dsimp only
  have habs : |s.tv4.x / s.m| = |s.tv4.x| / 2 ∧ |s.tv4.y / s.m| = |s.tv4.y| / 2 := by
    rcases hm with hm | hm <;> rw [hm] <;>
      constructor <;> rw [abs_div] <;> simp [abs_of_pos, abs_of_neg]
  have hubx : s.tv4.x / s.m * tv1.x ≤ |s.tv4.x| / 2 * |tv1.x| := by
    have h1 := le_abs_self (s.tv4.x / s.m * tv1.x)
    rw [abs_mul, habs.1] at h1
    linarith
  have hlbx : -(|s.tv4.x| / 2 * |tv1.x|) ≤ s.tv4.x / s.m * tv1.x := by
    have h1 := neg_abs_le (s.tv4.x / s.m * tv1.x)
    rw [abs_mul, habs.1] at h1
    linarith
  have huby : s.tv4.y / s.m * tv1.y ≤ |s.tv4.y| / 2 * |tv1.y| := by
    have h1 := le_abs_self (s.tv4.y / s.m * tv1.y)
    rw [abs_mul, habs.2] at h1
    linarith
  have hlby : -(|s.tv4.y| / 2 * |tv1.y|) ≤ s.tv4.y / s.m * tv1.y := by
    have h1 := neg_abs_le (s.tv4.y / s.m * tv1.y)
    rw [abs_mul, habs.2] at h1
    linarith
  refine ⟨by split <;> simp, ?_, ?_, ?_, ?_⟩
  · rw [habs.1]
    constructor
    · nlinarith [hxa, hubx]
    · nlinarith [hxb, hlbx]
  · rw [habs.2]
    constructor
    · nlinarith [hya, huby]
    · nlinarith [hyb, hlby]
  · intro hz
    obtain ⟨h4, h5⟩ := hx0 hz
    rw [h4]
    constructor
    · exact zero_div _
    · rw [zero_div, h5]; ring
  · intro hz
    obtain ⟨h4, h5⟩ := hy0 hz
    rw [h4]
    constructor
    · exact zero_div _
    · rw [zero_div, h5]; ring

/-- The first binary-search iteration (from the coarse hit point, divisor
`-2`) establishes the behind-invariant. -/
theorem bsStep_init (castId : ℤ) (bodies : List Body) (tv1 tv3 : Vec2) :
    bsInv tv1 tv3 (bsStep castId bodies ⟨tv1, tv3, -2, true⟩) := by
  unfold bsStep bsInv
  dsimp only
  have habsx : |tv1.x / (-2 : ℚ)| = |tv1.x| / 2 := by
    rw [abs_div]; simp [abs_of_neg]
  have habsy : |tv1.y / (-2 : ℚ)| = |tv1.y| / 2 := by
    rw [abs_div]; simp [abs_of_neg]
  refine ⟨by split <;> simp, ?_, ?_, ?_, ?_⟩
  · rw [habsx]
    constructor
    · nlinarith [abs_mul_abs_self tv1.x]
    · nlinarith [abs_mul_abs_self tv1.x]
  · rw [habsy]
    constructor
    · nlinarith [abs_mul_abs_self tv1.y]
    · nlinarith [abs_mul_abs_self tv1.y]
  · intro hz
    rw [hz]
    constructor
    · exact zero_div _
    · rw [zero_div]; ring
  · intro hz
    rw [hz]
    constructor
    · exact zero_div _
    · rw [zero_div]; ring

/-- The binary-search loop preserves the behind-invariant. -/
theorem bsRun_inv (castId : ℤ) (bodies : List Body) (tv1 tv3 : Vec2) :
    ∀ (k : ℕ) (s t : BsState), bsInv tv1 tv3 s →
      bsRun castId bodies k s = some t → bsInv tv1 tv3 t := by
  intro k
  induction k with
  | zero =>
    intro s t hs hr
    unfold bsRun at hr
    split at hr
    · exact absurd hr (by simp)
    · obtain rfl : s = t := by simpa using hr
      exact hs
  | succ k ih =>
    intro s t hs hr
    unfold bsRun at hr
    split at hr
    · exact ih _ t (bsStep_inv castId bodies tv1 tv3 s hs) hr
    · obtain rfl : s = t := by simpa using hr
      exact hs

/-- A completed binary search from the coarse hit point either never
iterated (the probe still sits at the coarse point) or satisfies the
behind-invariant. -/
theorem bsRun_init_cases (castId : ℤ) (bodies : List Body) (tv1 tv3 : Vec2) :
    ∀ (k : ℕ) (t : BsState),
      bsRun castId bodies k ⟨tv1, tv3, -2, true⟩ = some t →
      t = ⟨tv1, tv3, -2, true⟩ ∨ bsInv tv1 tv3 t := by
  intro k t hr
  cases k with
  | zero =>
    unfold bsRun at hr
    split at hr
    · exact absurd hr (by simp)
    · exact Or.inl (by simpa using hr.symm)
  | succ k =>
    unfold bsRun at hr
    split at hr
    · exact Or.inr (bsRun_inv castId bodies tv1 tv3 k _ t
        (bsStep_init castId bodies tv1 tv3) hr)
    · exact Or.inl (by simpa using hr.symm)

/-- A product with a negative sign transfers to `Math.sign` of the first
factor. -/
theorem sgn_mul_neg (a b : ℚ) (h : a * b < 0) : sgn a * b < 0 := by
  unfold sgn
  split_ifs with h1 h2
  · nlinarith
  · nlinarith
  · have : a = 0 := le_antisymm (not_lt.mp h1) (not_lt.mp h2)
    rw [this] at h
    simp at h

/-- A product with a nonnegative sign transfers to `Math.sign` of the
first factor. -/
theorem sgn_mul_nonneg (a b : ℚ) (h : 0 ≤ a * b) : 0 ≤ sgn a * b := by
  unfold sgn
  split_ifs with h1 h2
  · nlinarith
  · nlinarith
  · simp

/-- The fine walk of `lineCast` completes once the fuel covers the number
of x-steps to the sign flip, provided the walk direction is compatible with
the initial sign on the x axis. -/
theorem fwRun_some_x (castId : ℤ) (tv2 tv3 : Vec2) (sx sy : ℚ)
    (h0 : 0 ≤ sx * tv2.x) :
    ∀ (f : ℕ) (s : FwState),
      (tv3.x - s.tv5.x) * tv2.x < (f : ℚ) * (tv2.x * tv2.x) →
      ∃ t, fwRun castId tv2 tv3 sx sy f s = some t := by
  intro f
  induction f with
  | zero =>
    intro s hf
    push_cast at hf
    rw [zero_mul] at hf
    unfold fwRun
    have hng : ¬(sgn (tv3.x - s.tv5.x) = sx ∧ sgn (tv3.y - s.tv5.y) = sy) := by
      rintro ⟨hcx, -⟩
      have hlt := sgn_mul_neg (tv3.x - s.tv5.x) tv2.x hf
      rw [hcx] at hlt
      linarith
    rw [if_neg hng]
    exact ⟨s, rfl⟩
  | succ f ih =>
    intro s hf
    unfold fwRun
    split_ifs with hc
    · rcases hsc : fineScan castId s.tv5 s.bodies with ⟨bs, recs⟩
      dsimp only
      apply ih
      dsimp only
      push_cast
      push_cast at hf
      nlinarith [hf]
    · exact ⟨s, rfl⟩

/-- The fine walk of `lineCast` completes once the fuel covers the number
of y-steps to the sign flip, provided the walk direction is compatible with
the initial sign on the y axis. -/
theorem fwRun_some_y (castId : ℤ) (tv2 tv3 : Vec2) (sx sy : ℚ)
    (h0 : 0 ≤ sy * tv2.y) :
    ∀ (f : ℕ) (s : FwState),
      (tv3.y - s.tv5.y) * tv2.y < (f : ℚ) * (tv2.y * tv2.y) →
      ∃ t, fwRun castId tv2 tv3 sx sy f s = some t := by
  intro f
  induction f with
  | zero =>
    intro s hf
    push_cast at hf
    rw [zero_mul] at hf
    unfold fwRun
    have hng : ¬(sgn (tv3.x - s.tv5.x) = sx ∧ sgn (tv3.y - s.tv5.y) = sy) := by
      rintro ⟨-, hcy⟩
      have hlt := sgn_mul_neg (tv3.y - s.tv5.y) tv2.y hf
      rw [hcy] at hlt
      linarith
    rw [if_neg hng]
    exact ⟨s, rfl⟩
  | succ f ih =>
    intro s hf
    unfold fwRun
    split_ifs with hc
    · rcases hsc : fineScan castId s.tv5 s.bodies with ⟨bs, recs⟩
      dsimp only
      apply ih
      dsimp only
      push_cast
      push_cast at hf
      nlinarith [hf]
    · exact ⟨s, rfl⟩

/-- The body scan of one coarse sample completes: the binary search halves
its step to the threshold within `bsFuel`, and from its end point the fine
walk flips a sign within `fwFuel > step` unit steps. -/
theorem coarseScan_some (castId : ℤ) (tv1 tv2 tv3 : Vec2) (step : ℚ)
    (bsFuel fwFuel : ℕ) (hstep : 0 < step)
    (h1x : tv1.x = tv2.x * step) (h1y : tv1.y = tv2.y * step)
    (htv2 : ¬(tv2.x = 0 ∧ tv2.y = 0))
    (hbs : |tv1.x| + |tv1.y| ≤ 2 ^ bsFuel * (1 / 2))
    (hfw : step < (fwFuel : ℚ)) :
    ∀ (L : List ℕ) (st : CastScanState),
      ∃ t, coarseScan castId tv1 tv2 tv3 bsFuel fwFuel L st = some t := by
  intro L
  induction L with
  | nil => intro st; exact ⟨st, rfl⟩
  | cons i rest ih =>
    intro st
    unfold coarseScan
    dsimp only
    split_ifs with hskip hhit
    · exact ih st
    · obtain ⟨bs, hbsr⟩ := bsRun_some castId st.bodies bsFuel ⟨tv1, tv3, -2, true⟩
        (Or.inr rfl) (by dsimp only; exact hbs)
      rw [hbsr]
      dsimp only
      have hcases := bsRun_init_cases castId st.bodies tv1 tv3 bsFuel bs hbsr
      have hΔx0 : 0 ≤ (tv3.x - bs.tv5.x) * tv2.x := by
        rcases hcases with hinit | hinv
        · rw [hinit]; dsimp only; nlinarith []
        · obtain ⟨-, ⟨hxa, -⟩, -, -, -⟩ := hinv
          rw [h1x] at hxa
          nlinarith [mul_nonneg (abs_nonneg bs.tv4.x) (abs_nonneg (tv2.x * step)), hstep]
      have hΔxub : (tv3.x - bs.tv5.x) * tv2.x ≤ tv2.x * tv2.x * step := by
        rcases hcases with hinit | hinv
        · rw [hinit]; dsimp only; nlinarith [mul_self_nonneg tv2.x, hstep]
        · obtain ⟨-, ⟨-, hxb⟩, -, -, -⟩ := hinv
          rw [h1x] at hxb
          nlinarith [mul_nonneg (abs_nonneg bs.tv4.x) (abs_nonneg (tv2.x * step)),
            abs_mul_abs_self (tv2.x * step), hstep]
      have hΔy0 : 0 ≤ (tv3.y - bs.tv5.y) * tv2.y := by
        rcases hcases with hinit | hinv
        · rw [hinit]; dsimp only; nlinarith []
        · obtain ⟨-, -, ⟨hya, -⟩, -, -⟩ := hinv
          rw [h1y] at hya
          nlinarith [mul_nonneg (abs_nonneg bs.tv4.y) (abs_nonneg (tv2.y * step)), hstep]
      have hΔyub : (tv3.y - bs.tv5.y) * tv2.y ≤ tv2.y * tv2.y * step := by
        rcases hcases with hinit | hinv
        · rw [hinit]; dsimp only; nlinarith [mul_self_nonneg tv2.y, hstep]
        · obtain ⟨-, -, ⟨-, hyb⟩, -, -⟩ := hinv
          rw [h1y] at hyb
          nlinarith [mul_nonneg (abs_nonneg bs.tv4.y) (abs_nonneg (tv2.y * step)),
            abs_mul_abs_self (tv2.y * step), hstep]
      by_cases hxz : tv2.x = 0
      · have hyz : tv2.y ≠ 0 := fun h => htv2 ⟨hxz, h⟩
        obtain ⟨fw, hfwr⟩ := fwRun_some_y castId tv2 tv3
          (sgn (tv3.x - bs.tv5.x)) (sgn (tv3.y - bs.tv5.y))
          (sgn_mul_nonneg _ _ hΔy0) fwFuel ⟨st.bodies, st.recs, bs.tv5⟩
          (by
            dsimp only
            have ht2 : 0 < tv2.y * tv2.y := mul_self_pos.mpr hyz
            nlinarith [hΔyub, ht2, hfw])
        rw [hfwr]
        dsimp only
        exact ih _
      · obtain ⟨fw, hfwr⟩ := fwRun_some_x castId tv2 tv3
          (sgn (tv3.x - bs.tv5.x)) (sgn (tv3.y - bs.tv5.y))
          (sgn_mul_nonneg _ _ hΔx0) fwFuel ⟨st.bodies, st.recs, bs.tv5⟩
          (by
            dsimp only
            have ht2 : 0 < tv2.x * tv2.x := mul_self_pos.mpr hxz
            nlinarith [hΔxub, ht2, hfw])
        rw [hfwr]
        dsimp only
        exact ih _
    · exact ih st

/-- The coarse loop of `lineCast` completes with fuel `⌈count⌉` and
executes at most that many iterations. -/
theorem lcRun_some (castId : ℤ) (tv1 tv2 : Vec2) (step : ℚ)
    (bsFuel fwFuel : ℕ) (hstep : 0 < step)
    (h1x : tv1.x = tv2.x * step) (h1y : tv1.y = tv2.y * step)
    (htv2 : ¬(tv2.x = 0 ∧ tv2.y = 0))
    (hbs : |tv1.x| + |tv1.y| ≤ 2 ^ bsFuel * (1 / 2))
    (hfw : step < (fwFuel : ℚ)) :
    ∀ (f : ℕ) (s : LcState), s.count ≤ (f : ℚ) →
      ∃ t, lcRun castId tv1 tv2 bsFuel fwFuel f s = some t ∧
        t.iters ≤ s.iters + f := by
  intro f
  induction f with
  | zero =>
    intro s hf
    unfold lcRun
    rw [if_neg (by push_cast at hf; exact not_lt.mpr hf)]
    exact ⟨s, rfl, by omega⟩
  | succ f ih =>
    intro s hf
    unfold lcRun
    split_ifs with hc
    · obtain ⟨cs, hcs⟩ := coarseScan_some castId tv1 tv2 s.tv3 step bsFuel fwFuel
        hstep h1x h1y htv2 hbs hfw (List.range s.scan.bodies.length) s.scan
      rw [hcs]
      obtain ⟨t, htr, hit⟩ := ih ⟨cs, ⟨s.tv3.x + tv1.x, s.tv3.y + tv1.y⟩,
        s.count - 1, s.iters + 1⟩ (by dsimp only; push_cast; push_cast at hf; linarith)
      exact ⟨t, htr, by dsimp only at hit; omega⟩
    · exact ⟨s, rfl, by omega⟩

/-- `minOpt` of a defined minimum is always defined. -/
theorem minOpt_some (a q : ℚ) : ∃ y, minOpt (some a) q = some y := by
  show ∃ y, (if q < a then some q else some a) = some y
  split
  · exact ⟨q, rfl⟩
  · exact ⟨a, rfl⟩

/-- The `minBbAxis` fold keeps a defined value once it has one. -/
theorem minBb_fold_some (l : List Body) :
    ∀ (a : ℚ), ∃ y, l.foldl
      (fun m b => minOpt (minOpt m (b.bb.xmax - b.bb.xmin)) (b.bb.ymax - b.bb.ymin))
      (some a) = some y := by
  induction l with
  | nil => intro a; exact ⟨a, rfl⟩
  | cons b rest ih =>
    intro a
    simp only [List.foldl_cons]
    obtain ⟨y1, hy1⟩ := minOpt_some a (b.bb.xmax - b.bb.xmin)
    rw [hy1]
    obtain ⟨y2, hy2⟩ := minOpt_some y1 (b.bb.ymax - b.bb.ymin)
    rw [hy2]
    exact ih y2

/-- `minOpt` preserves positivity of the running minimum. -/
theorem minOpt_pos (m : Option ℚ) (q : ℚ)
    (hm : ∀ x, m = some x → 0 < x) (hq : 0 < q) :
    ∀ x, minOpt m q = some x → 0 < x := by
  intro x hx
  cases m with
  | none =>
    obtain rfl : q = x := by simpa [minOpt] using hx
    exact hq
  | some a =>
    rw [show minOpt (some a) q = if q < a then some q else some a from rfl] at hx
    split at hx
    · obtain rfl : q = x := by simpa using hx
      exact hq
    · obtain rfl : a = x := by simpa using hx
      exact hm a rfl

/-- The `minBbAxis` fold over bodies with positive extents yields a
positive value. -/
theorem minBb_fold_pos (l : List Body)
    (hl : ∀ b ∈ l, 0 < b.bb.xmax - b.bb.xmin ∧ 0 < b.bb.ymax - b.bb.ymin) :
    ∀ (m : Option ℚ), (∀ x, m = some x → 0 < x) →
      ∀ x, l.foldl
        (fun m b => minOpt (minOpt m (b.bb.xmax - b.bb.xmin)) (b.bb.ymax - b.bb.ymin))
        m = some x → 0 < x := by
  induction l with
  | nil => intro m hm x hx; exact hm x (by simpa using hx)
  | cons b rest ih =>
    intro m hm x hx
    simp only [List.foldl_cons] at hx
    refine ih (fun b2 hb2 => hl b2 (List.mem_cons_of_mem _ hb2)) _ ?_ x hx
    exact minOpt_pos _ _ (minOpt_pos _ _ hm (hl b (by simp)).1) (hl b (by simp)).2

/-- C5 (counterexample to the stated bound): in the unit-square cast the
coarse loop runs 22 iterations, strictly more than
`distance / step + 1 = 20 / 0.98 + 1 ≈ 21.41`. -/
theorem C5_counterexample :
    (lineCast engC3 ⟨-10, 0⟩ ⟨10, 0⟩ 20 30 10 10).map (fun r => r.2.2) =
      some 22 ∧
    engC3.minBbAxis = some 1 ∧
    (20 : ℚ) * 20 = (10 - -10) * (10 - -10) + (0 - 0) * (0 - 0) ∧
    ¬ ((22 : ℚ) ≤ 20 / (1 * (98 / 100)) + 1) :=
  ⟨by decide, by decide, by decide, by decide⟩

/-- C5 (amended): for a registry built from at least one body with positive
bounding-box extents on both axes and distinct cast endpoints, `lineCast`
terminates: with `step = minBbAxis * 0.98` the coarse loop runs at most
`⌈distance / step + 1 + Number.EPSILON⌉` iterations (which may exceed
`distance / step + 1`, as the counterexample shows), the binary search
halts once its step's `|dx| + |dy|` drops to `0.5` or below, and the fine
walk halts once a component of `coarse point - walk point` changes sign. -/
theorem C5_lineCast_terminates (data : List ShapeData) (pfrom pto : Vec2)
    (d : ℚ) (hne : pfrom ≠ pto) (hd0 : 0 ≤ d)
    (hd : d * d = (pto.x - pfrom.x) * (pto.x - pfrom.x) +
      (pto.y - pfrom.y) * (pto.y - pfrom.y))
    (hdata : data ≠ [])
    (hbb : ∀ b ∈ (updateData freshEngine data).bodies,
      0 < b.bb.xmax - b.bb.xmin ∧ 0 < b.bb.ymax - b.bb.ymin) :
    ∃ (bf wf : ℕ) (r : EngineState × List (Body × Vec2) × ℕ),
      lineCast (updateData freshEngine data) pfrom pto d
        (Nat.ceil (d / ((updateData freshEngine data).minBbAxis.getD 0 * (98 / 100))
          + 1 + numEPS)) bf wf = some r ∧
      r.2.2 ≤ Nat.ceil (d / ((updateData freshEngine data).minBbAxis.getD 0 * (98 / 100))
          + 1 + numEPS) := by
  set e := updateData freshEngine data with he
  have hfold : e.minBbAxis = e.bodies.foldl
      (fun m b => minOpt (minOpt m (b.bb.xmax - b.bb.xmin)) (b.bb.ymax - b.bb.ymin))
      none := rfl
  have hlen : e.bodies.length = data.length := by
    rw [he]
    unfold updateData
    dsimp only
    simp
  obtain ⟨b0, rest0, hb0⟩ : ∃ b0 rest0, e.bodies = b0 :: rest0 := by
    rcases hlist : e.bodies with _ | ⟨b0, r0⟩
    · exfalso
      apply hdata
      rw [hlist] at hlen
      simpa using (List.length_eq_zero.mp hlen.symm)
    · exact ⟨b0, r0, rfl⟩
  obtain ⟨mba, hmba⟩ : ∃ mba, e.minBbAxis = some mba := by
    rw [hfold, hb0]
    simp only [List.foldl_cons]
    rw [show minOpt none (b0.bb.xmax - b0.bb.xmin) =
      some (b0.bb.xmax - b0.bb.xmin) from rfl]
    obtain ⟨y1, hy1⟩ := minOpt_some (b0.bb.xmax - b0.bb.xmin) (b0.bb.ymax - b0.bb.ymin)
    rw [hy1]
    exact minBb_fold_some rest0 y1
  have hmba_pos : 0 < mba := by
    refine minBb_fold_pos e.bodies hbb none ?_ mba ?_
    · intro x hx
      simp at hx
    · rw [← hfold]
      exact hmba
  have hgetD : e.minBbAxis.getD 0 = mba := by rw [hmba]; rfl
  rw [hgetD]
  set step := mba * (98 / 100) with hstep_def
  have hstep : 0 < step := by rw [hstep_def]; positivity
  have hd2pos : 0 < d * d := by
    rcases show pto.x - pfrom.x ≠ 0 ∨ pto.y - pfrom.y ≠ 0 by
      by_contra hcc
      push_neg at hcc
      apply hne
      obtain ⟨hx, hy⟩ := hcc
      obtain ⟨px, py⟩ := pfrom
      obtain ⟨qx, qy⟩ := pto
      simp only at hx hy
      congr 1 <;> linarith with h | h
    · nlinarith [mul_self_nonneg (pto.y - pfrom.y), mul_self_pos.mpr h]
    · nlinarith [mul_self_nonneg (pto.x - pfrom.x), mul_self_pos.mpr h]
  have hdpos : 0 < d := by nlinarith [hd0, hd2pos]
  have hdne : d ≠ 0 := ne_of_gt hdpos
  have htv2 : ¬((pto.x - pfrom.x) / d = 0 ∧ (pto.y - pfrom.y) / d = 0) := by
    rintro ⟨hx, hy⟩
    rw [div_eq_zero_iff] at hx hy
    have hdx : pto.x - pfrom.x = 0 := hx.resolve_right hdne
    have hdy : pto.y - pfrom.y = 0 := hy.resolve_right hdne
    rw [hdx, hdy] at hd
    nlinarith [hd2pos]
  obtain ⟨bf, hbf⟩ := pow_unbounded_of_one_lt (α := ℚ)
    (2 * (|(pto.x - pfrom.x) / d * step| + |(pto.y - pfrom.y) / d * step|))
    one_lt_two
  have hbs : |(pto.x - pfrom.x) / d * step| + |(pto.y - pfrom.y) / d * step| ≤
      2 ^ bf * (1 / 2) := by linarith
  obtain ⟨wf, hwf⟩ := exists_nat_gt step
  obtain ⟨t, htr, hiter⟩ := lcRun_some (e.castId + 1)
    ⟨(pto.x - pfrom.x) / d * step, (pto.y - pfrom.y) / d * step⟩
    ⟨(pto.x - pfrom.x) / d, (pto.y - pfrom.y) / d⟩ step bf wf hstep rfl rfl
    (by exact htv2) hbs hwf
    (Nat.ceil (d / step + 1 + numEPS))
    ⟨⟨e.bodies, []⟩, pfrom, d / step + 1 + numEPS, 0⟩
    (by dsimp only; exact Nat.le_ceil _)
  refine ⟨bf, wf,
    ({ e with bodies := t.scan.bodies, castId := e.castId + 1 },
      t.scan.recs, t.iters), ?_, ?_⟩
  · unfold lineCast
    dsimp only
    rw [hgetD, htr]
    rfl
  · dsimp only
    dsimp only at hiter
    omega

/-- Witness for C5: the unit-square registry with the cast
`(-10,0) → (10,0)` of length 20 instantiates the termination statement. -/
theorem C5_lineCast_terminates_witness :
    ∃ (bf wf : ℕ) (r : EngineState × List (Body × Vec2) × ℕ),
      lineCast (updateData freshEngine dataC3) ⟨-10, 0⟩ ⟨10, 0⟩ 20
        (Nat.ceil ((20 : ℚ) /
          ((updateData freshEngine dataC3).minBbAxis.getD 0 * (98 / 100))
          + 1 + numEPS)) bf wf = some r ∧
      r.2.2 ≤ Nat.ceil ((20 : ℚ) /
          ((updateData freshEngine dataC3).minBbAxis.getD 0 * (98 / 100))
          + 1 + numEPS) :=
  C5_lineCast_terminates dataC3 ⟨-10, 0⟩ ⟨10, 0⟩ 20
    (by decide) (by decide) (by decide) (by decide) (by decide)
